import Mathlib

/-!
# minidb: a log-structured key-value store

A shallow embedding of `db.go`, `db_file.go` and `error.go`.

* A file is the list of its bytes; `os.File.ReadAt` and `os.File.WriteAt`
  are functions on that list.  A read fails only with `io.EOF` (fewer bytes
  than asked for are left); a write may fail through an explicit fault
  argument (`none`: the write succeeds, `some n`: the device reports an error
  after `n` bytes).
* `map[string]int64` is a lookup function `List Byte → Option Nat`; the code
  only looks keys up, stores and deletes them.
* `int64` offsets are natural numbers (a file of `2^63` bytes is out of reach).
* Go's `nil` slice and the empty slice are both `[]`.
* The two `for` loops that scan the log are recursive functions with a fuel
  argument, called with more fuel than the file has bytes; `none` means that
  the fuel ran out, which `Open_returns` and `MiniDB.Merge_returns` exclude.
* The lock `mu` is left out: calls are modelled one at a time.
* Failures of `os.MkdirAll`, `os.OpenFile`, `File.Stat`, `os.Remove` and
  `os.Rename` are not modelled, and `db.dbFile` is never `nil`.
-/

namespace minidb

abbrev Byte := Fin 256

/-- The error values of `error.go`, `io.EOF`, and the failures of the codec and of the device. -/
inductive Error where
  | EOF
  | ErrKeyNotExist
  | ErrInvalidDBFile
  | ErrEncode
  | ErrDecode
  | ErrWrite
  deriving DecidableEq, Repr

/-! ## Entry codec -/

/-- Modelled from the spec: the file declaring `Entry` with its codec is missing; the mark
`PUT` is written `0` (section 6). -/
def PUT : Nat := 0

/-- Modelled from the spec: the file declaring `Entry` with its codec is missing; the mark
`DELETE` is written `1` (section 6). -/
def DEL : Nat := 1

/-- Modelled from the spec: the constant `entryHeaderSize` is missing; the header is three
`uint32` fields (section 6), twelve bytes. -/
def entryHeaderSize : Nat := 12

/-- Modelled from the spec: the type `Entry` is missing; section 3 gives it a key, a value, a
mark and the two sizes. -/
structure Entry where
  Key : List Byte
  Value : List Byte
  KeySize : Nat
  ValueSize : Nat
  Mark : Nat
  deriving DecidableEq, Repr

/-- Modelled from the spec: the constructor `NewEntry` is missing; the sizes are the lengths
of the key and of the value (section 3). -/
def NewEntry (key value : List Byte) (mark : Nat) : Entry :=
  { Key := key, Value := value, KeySize := key.length, ValueSize := value.length, Mark := mark }

/-- Modelled from the spec: the method `GetSize` is missing;
`total_size = header_size + key_size + value_size` (sections 3 and 4.1). -/
def Entry.GetSize (e : Entry) : Nat :=
  entryHeaderSize + e.KeySize + e.ValueSize

/-- Modelled from the spec: the low eight bits of a number, one byte of a fixed-width field. -/
def toByte (n : Nat) : Byte := ⟨n % 256, Nat.mod_lt n (by decide)⟩

/-- Modelled from the spec: the header fields are fixed-width, fixed-endianness `uint32`
(section 6); the spec does not name the byte order, big-endian is taken. -/
def putUint32 (n : Nat) : List Byte :=
  [toByte (n / 16777216), toByte (n / 65536), toByte (n / 256), toByte n]

/-- Modelled from the spec: reads back a big-endian `uint32` from four bytes. -/
def getUint32 (b : List Byte) : Nat :=
  match b with
  | [b0, b1, b2, b3] => b0.val * 16777216 + b1.val * 65536 + b2.val * 256 + b3.val
  | _ => 0

/-- Modelled from the spec: the header of a record, `key_size`, `value_size`, `mark`. -/
def encodeHeader (e : Entry) : List Byte :=
  putUint32 e.KeySize ++ putUint32 e.ValueSize ++ putUint32 e.Mark

/-- Modelled from the spec: the method `Encode` is missing; it produces
`header || key_bytes || value_bytes` and fails if a size exceeds the representable range
(section 4.1). -/
def Entry.Encode (e : Entry) : Except Error (List Byte) :=
  if e.KeySize < 4294967296 ∧ e.ValueSize < 4294967296 then
    .ok (encodeHeader e ++ e.Key ++ e.Value)
  else
    .error Error.ErrEncode

/-- Modelled from the spec: the function `Decode` is missing; it parses only the header,
leaves key and value for a later read, and fails on truncated or malformed header bytes
(section 4.1); a header is malformed when its mark is neither `PUT` nor `DELETE`. -/
def Decode (buf : List Byte) : Except Error Entry :=
  if buf.length = entryHeaderSize then
    let ks := getUint32 (buf.take 4)
    let vs := getUint32 ((buf.drop 4).take 4)
    let mark := getUint32 ((buf.drop 8).take 4)
    if mark = PUT ∨ mark = DEL then
      .ok { Key := [], Value := [], KeySize := ks, ValueSize := vs, Mark := mark }
    else
      .error Error.ErrDecode
  else
    .error Error.ErrDecode

/-! ## Append log (`db_file.go`) -/

/-- `os.File.ReadAt` with a buffer of `n` bytes: all `n` bytes or `io.EOF`. -/
def ReadAt (file : List Byte) (n : Nat) (off : Nat) : Except Error (List Byte) :=
  if off + n ≤ file.length then .ok ((file.drop off).take n) else .error Error.EOF

/-- The file after the bytes `b` are stored at `off`: a gap past the end is filled with
zeros, bytes already there are overwritten. -/
def storeAt (file : List Byte) (b : List Byte) (off : Nat) : List Byte :=
  if b = [] then file
  else file.take off ++ List.replicate (off - file.length) 0 ++ b ++ file.drop (off + b.length)

/-- `os.File.WriteAt`: with `fault = none` all of `b` is stored; with `fault = some n` the
device fails after `n` bytes. -/
def WriteAt (file : List Byte) (b : List Byte) (off : Nat) (fault : Option Nat) :
    List Byte × Option Error :=
  match fault with
  | none => (storeAt file b off, none)
  | some n => (storeAt file (b.take n) off, some Error.ErrWrite)

structure DBFile where
  File : List Byte
  Offset : Nat
  deriving DecidableEq, Repr

/-- `newInternal`: opens the file (already created when it did not exist) and sets `Offset`
to its size. -/
def newInternal (content : List Byte) : DBFile :=
  { File := content, Offset := content.length }

/-- `DBFile.Read`: the entry and the error it returns; with an error the entry may be `nil`
(`none`) or hold what was decoded so far. -/
def DBFile.Read (df : DBFile) (offset : Nat) : Except (Option Entry × Error) Entry :=
  match ReadAt df.File entryHeaderSize offset with
  | .error err => .error (none, err)
  | .ok buf =>
  match Decode buf with
  | .error err => .error (none, err)
  | .ok e0 =>
  let offset := offset + entryHeaderSize
  match (if e0.KeySize > 0 then
      (ReadAt df.File e0.KeySize offset).map (fun key => { e0 with Key := key })
    else .ok e0) with
  | .error err => .error (some e0, err)
  | .ok e1 =>
  let offset := offset + e1.KeySize
  match (if e1.ValueSize > 0 then
      (ReadAt df.File e1.ValueSize offset).map (fun value => { e1 with Value := value })
    else .ok e1) with
  | .error err => .error (some e1, err)
  | .ok e2 => .ok e2

/-- `DBFile.Write`: `Offset` moves on also when `WriteAt` fails, not when `Encode` fails. -/
def DBFile.Write (df : DBFile) (e : Entry) (fault : Option Nat) : DBFile × Option Error :=
  match e.Encode with
  | .error err => (df, some err)
  | .ok enc =>
    let r := WriteAt df.File enc df.Offset fault
    ({ File := r.1, Offset := df.Offset + e.GetSize }, r.2)

/-! ## Engine (`db.go`) -/

abbrev Index := List Byte → Option Nat

def Index.empty : Index := fun _ => none

/-- `m[key] = off`. -/
def Index.set (m : Index) (key : List Byte) (off : Nat) : Index :=
  fun k => if k = key then some off else m k

/-- `delete(m, key)`. -/
def Index.delete (m : Index) (key : List Byte) : Index :=
  fun k => if k = key then none else m k

/-- The engine: `dbFile.File` is the content of `minidb.data`, `mergeFile` the content of
`minidb.data.merge` when that file exists in the directory. -/
structure MiniDB where
  indexes : Index
  dbFile : DBFile
  mergeFile : Option (List Byte)

/-- The two files of a database directory, each present or not. -/
structure Dir where
  data : Option (List Byte)
  merge : Option (List Byte)
  deriving DecidableEq, Repr

/-- The loop of `loadIndexesFromFile`. -/
def loadLoop : Nat → DBFile → Index → Nat → Option Index
  | 0, _, _, _ => none
  | fuel + 1, df, indexes, offset =>
    match df.Read offset with
    | .error (_, err) =>
      if err = Error.EOF then some indexes  -- break
      else some indexes                     -- return
    | .ok e =>
      let indexes := indexes.set e.Key offset
      let indexes := if e.Mark = DEL then indexes.delete e.Key else indexes
      loadLoop fuel df indexes (offset + e.GetSize)

def MiniDB.loadIndexesFromFile (db : MiniDB) : Option MiniDB :=
  (loadLoop (db.dbFile.File.length + 1) db.dbFile db.indexes 0).map
    (fun indexes => { db with indexes := indexes })

/-- `Open`: `NewDBFile` creates `minidb.data` when it is missing. -/
def Open (dir : Dir) : Option MiniDB :=
  let dbFile := newInternal (dir.data.getD [])
  let db : MiniDB := { indexes := Index.empty, dbFile := dbFile, mergeFile := dir.merge }
  db.loadIndexesFromFile

/-- The scan loop of `Merge`: `ok` with the valid entries after `io.EOF`, `error` for any
other error of `Read`. -/
def mergeScan : Nat → DBFile → Index → Nat → List Entry → Option (Except Error (List Entry))
  | 0, _, _, _, _ => none
  | fuel + 1, df, indexes, offset, validEntries =>
    match df.Read offset with
    | .error (_, err) =>
      if err = Error.EOF then some (.ok validEntries) else some (.error err)
    | .ok ent =>
      let validEntries :=
        if indexes ent.Key = some offset then validEntries ++ [ent] else validEntries
      mergeScan fuel df indexes (offset + ent.GetSize) validEntries

/-- The write loop of `Merge`; `faults i` is the fault of the `i`-th write. -/
def mergeWrite : List Entry → DBFile → Index → (Nat → Option Nat) → DBFile × Index × Option Error
  | [], mergeDBFile, indexes, _ => (mergeDBFile, indexes, none)
  | ent :: rest, mergeDBFile, indexes, faults =>
    let writeOff := mergeDBFile.Offset
    let r := mergeDBFile.Write ent (faults 0)
    if r.2 ≠ none then (r.1, indexes, r.2)
    else mergeWrite rest r.1 (indexes.set ent.Key writeOff) (fun i => faults (i + 1))

def MiniDB.Merge (db : MiniDB) (faults : Nat → Option Nat) : Option (MiniDB × Option Error) :=
  if db.dbFile.Offset = 0 then some (db, none)
  else
    match mergeScan (db.dbFile.File.length + 1) db.dbFile db.indexes 0 [] with
    | none => none
    | some (.error err) => some (db, some err)
    | some (.ok validEntries) =>
      if validEntries.length > 0 then
        -- NewMergeDBFile: the temporary file is opened, or created empty
        let mergeDBFile := newInternal (db.mergeFile.getD [])
        match mergeWrite validEntries mergeDBFile db.indexes faults with
        | (_, indexes, some err) =>
          -- the deferred os.Remove deletes the temporary file
          some ({ db with indexes := indexes, mergeFile := none }, some err)
        | (mergeDBFile, indexes, none) =>
          -- the old file is removed, the temporary file renamed and opened again
          some ({ indexes := indexes, dbFile := newInternal mergeDBFile.File,
                  mergeFile := none }, none)
      else some (db, none)

def MiniDB.Put (db : MiniDB) (key value : List Byte) (fault : Option Nat) :
    MiniDB × Option Error :=
  if key.length = 0 then (db, none)
  else
    let offset := db.dbFile.Offset
    let ent := NewEntry key value PUT
    let r := db.dbFile.Write ent fault
    ({ db with dbFile := r.1, indexes := db.indexes.set key offset }, r.2)

def MiniDB.exist (db : MiniDB) (key : List Byte) : Nat × Option Error :=
  match db.indexes key with
  | none => (0, some Error.ErrKeyNotExist)
  | some offset => (offset, none)

def MiniDB.Get (db : MiniDB) (key : List Byte) : List Byte × Option Error :=
  if key.length = 0 then ([], none)
  else
    let r := db.exist key
    if r.2 = some Error.ErrKeyNotExist then ([], r.2)
    else
      match db.dbFile.Read r.1 with
      | .ok ent => (ent.Value, none)
      | .error (ent, err) =>
        if err ≠ Error.EOF then ([], some err)
        else
          match ent with
          | some ent => (ent.Value, some err)
          | none => ([], some err)

def MiniDB.Del (db : MiniDB) (key : List Byte) (fault : Option Nat) : MiniDB × Option Error :=
  if key.length = 0 then (db, none)
  else
    let r := db.exist key
    if r.2 = some Error.ErrKeyNotExist then (db, none)
    else
      let ent := NewEntry key [] DEL
      let w := db.dbFile.Write ent fault
      if w.2 ≠ none then ({ db with dbFile := w.1 }, w.2)
      else ({ db with dbFile := w.1, indexes := db.indexes.delete key }, none)

/-- `Close`: the file handle is released; the directory keeps both files. -/
def MiniDB.Close (db : MiniDB) : Dir × Option Error :=
  ({ data := some db.dbFile.File, merge := db.mergeFile }, none)

/-! ## Vocabulary of the statements -/

/-- A record as `NewEntry` builds it and `Encode` accepts it, with a mark that `Decode`
accepts. -/
def Entry.wellFormed (e : Entry) : Prop :=
  e.KeySize = e.Key.length ∧ e.ValueSize = e.Value.length ∧
  e.KeySize < 4294967296 ∧ e.ValueSize < 4294967296 ∧ (e.Mark = PUT ∨ e.Mark = DEL)

instance (e : Entry) : Decidable e.wellFormed := by
  unfold Entry.wellFormed; infer_instance

/-- The bytes of a record in the log. -/
def Entry.bytes (e : Entry) : List Byte := encodeHeader e ++ e.Key ++ e.Value

/-- The log that holds the records `rs` one after the other. -/
def logBytes : List Entry → List Byte
  | [] => []
  | r :: rs => r.bytes ++ logBytes rs

/-- The replay rule of the spec, applied to the records `rs` of which the first starts at
`off`: a `DELETE` record removes its key, any other record maps its key to its offset. -/
def replay : List Entry → Nat → Index → Index
  | [], _, indexes => indexes
  | r :: rs, off, indexes =>
    replay rs (off + r.GetSize)
      (if r.Mark = DEL then indexes.delete r.Key else indexes.set r.Key off)

/-- The live records among `rs`, of which the first starts at `off`: those whose key the
index maps to their own offset; their order is kept. -/
def liveRecords (indexes : Index) : List Entry → Nat → List Entry
  | [], _ => []
  | r :: rs, off =>
    if indexes r.Key = some off then r :: liveRecords indexes rs (off + r.GetSize)
    else liveRecords indexes rs (off + r.GetSize)

/-- The index after the records `rs` are written one after the other from `off` on, each
key being mapped to the offset of its record. -/
def reindex : List Entry → Nat → Index → Index
  | [], _, indexes => indexes
  | r :: rs, off, indexes => reindex rs (off + r.GetSize) (indexes.set r.Key off)

/-- The state after a `Merge` that rewrote the log with the records `live`. -/
def mergedDB (db : MiniDB) (live : List Entry) : MiniDB :=
  { indexes := reindex live (db.mergeFile.getD []).length db.indexes,
    dbFile := newInternal (db.mergeFile.getD [] ++ logBytes live),
    mergeFile := none }

/-- A device that never fails. -/
def noFault : Nat → Option Nat := fun _ => none

/-- A directory without any file. -/
def emptyDir : Dir := { data := none, merge := none }

/-- The engine that `Open` returns on a directory without any file. -/
def freshDB : MiniDB :=
  { indexes := Index.empty, dbFile := { File := [], Offset := 0 }, mergeFile := none }

/-- The engine after `Put("a", "1")` and `Del("a")` on a fresh engine. -/
def deletedDB : MiniDB :=
  ((freshDB.Put [97] [49] none).1.Del [97] none).1

/-- The engine after `Put("b", "x")`, `Put("a", "1")`, `Put("a", "2")` and `Del("b")` on a
fresh engine. -/
def scenarioDB : MiniDB :=
  ((((freshDB.Put [98] [120] none).1.Put [97] [49] none).1.Put [97] [50] none).1.Del [98] none).1

/-- The states that `Open` on an empty directory followed by `Put` and `Del` calls that
return no error can produce. -/
inductive Reachable : MiniDB → Prop where
  | init (db : MiniDB) : Open emptyDir = some db → Reachable db
  | put (db : MiniDB) (key value : List Byte) (fault : Option Nat) :
      Reachable db → (db.Put key value fault).2 = none → Reachable (db.Put key value fault).1
  | del (db : MiniDB) (key : List Byte) (fault : Option Nat) :
      Reachable db → (db.Del key fault).2 = none → Reachable (db.Del key fault).1

/-- The log is the sequence of the well-formed records `rs`, the write offset is its end. -/
def IsLog (db : MiniDB) (rs : List Entry) : Prop :=
  (∀ r ∈ rs, r.wellFormed) ∧ db.dbFile.File = logBytes rs ∧
  db.dbFile.Offset = db.dbFile.File.length

/-- Every record of the log is live: it is a `PUT` record and the index maps its key to
the offset where it starts. -/
def OnlyLive (db : MiniDB) : Prop :=
  ∃ rs, IsLog db rs ∧
    ∀ pre r post, rs = pre ++ r :: post →
      r.Mark = PUT ∧ db.indexes r.Key = some (logBytes pre).length

/-- The invariant of the engine: the log is a sequence of well-formed records, the index is
their replay, and no temporary merge file is left in the directory. -/
def Inv (db : MiniDB) : Prop :=
  ∃ rs, IsLog db rs ∧ db.indexes = replay rs 0 Index.empty ∧ db.mergeFile = none

/-- The states that `Open` on an empty directory followed by `Put`, `Del` and `Merge` calls
that return no error can produce. -/
inductive ReachableM : MiniDB → Prop where
  | init (db : MiniDB) : Open emptyDir = some db → ReachableM db
  | put (db : MiniDB) (key value : List Byte) (fault : Option Nat) :
      ReachableM db → (db.Put key value fault).2 = none → ReachableM (db.Put key value fault).1
  | del (db : MiniDB) (key : List Byte) (fault : Option Nat) :
      ReachableM db → (db.Del key fault).2 = none → ReachableM (db.Del key fault).1
  | merge (db db' : MiniDB) (faults : Nat → Option Nat) :
      ReachableM db → db.Merge faults = some (db', none) → ReachableM db'

/-- One step of the replay rule in the words of the spec, on the index built so far and the
start offset of the record: `PUT` sets `index[key]` to the offset of the record, `DELETE`
removes the key; the next record starts after the total size of this one. -/
def replayStep (acc : Index × Nat) (r : Entry) : Index × Nat :=
  (if r.Mark = PUT then acc.1.set r.Key acc.2
   else if r.Mark = DEL then acc.1.delete r.Key
   else acc.1,
   acc.2 + r.GetSize)

/-- The replay rule of the spec as a left fold over the records, from the empty index and
offset `0`. -/
def specReplay (rs : List Entry) : Index :=
  (rs.foldl replayStep (Index.empty, 0)).1

/-- The engine after `Merge` on `scenarioDB`: the log holds the record of `"a"` only. -/
def mergedScenarioDB : MiniDB :=
  mergedDB scenarioDB [NewEntry [97] [50] PUT]

/-- The engine after a `Put("a", "1")` on a fresh engine whose write failed before any byte
was stored. -/
def failedPutDB : MiniDB :=
  (freshDB.Put [97] [49] (some 0)).1

/-- The states that `Open` on the directory `dir` followed by `Put` and `Del` calls that
return no error can produce. -/
inductive ReachableFrom (dir : Dir) : MiniDB → Prop where
  | init (db : MiniDB) : Open dir = some db → ReachableFrom dir db
  | put (db : MiniDB) (key value : List Byte) (fault : Option Nat) :
      ReachableFrom dir db → (db.Put key value fault).2 = none →
      ReachableFrom dir (db.Put key value fault).1
  | del (db : MiniDB) (key : List Byte) (fault : Option Nat) :
      ReachableFrom dir db → (db.Del key fault).2 = none →
      ReachableFrom dir (db.Del key fault).1

/-- The log file of the directory is missing, empty, or a sequence of well-formed records:
it has no truncated or corrupt record. -/
def Dir.wellFormedLog (dir : Dir) : Prop :=
  ∃ rs, (∀ r ∈ rs, r.wellFormed) ∧ dir.data.getD [] = logBytes rs

/-- No record of the list has the key of a record before it. -/
def KeysOnce (vs : List Entry) : Prop :=
  ∀ a r b, vs = a ++ r :: b → ∀ x ∈ b, x.Key ≠ r.Key

/-- A directory whose log is the record of `Put("a", "1")` followed by four bytes of a
truncated record. -/
def tornDir : Dir :=
  { data := some (logBytes [NewEntry [97] [49] PUT] ++ [0, 0, 0, 1]), merge := none }

/-- The engine after `Open` on `tornDir` and `Put("c", "3")`. -/
def tornDB : MiniDB :=
  (((Open tornDir).getD freshDB).Put [99] [51] none).1

/-- A directory whose log is four bytes of a truncated record. -/
def tornOnlyDir : Dir :=
  { data := some [0, 0, 0, 1], merge := none }

/-- The engine after `Open` on `tornOnlyDir` and `Put("c", "3")`. -/
def tornOnlyDB : MiniDB :=
  (((Open tornOnlyDir).getD freshDB).Put [99] [51] none).1

/-- A directory without log in which a temporary merge file of three bytes is left. -/
def staleDir : Dir :=
  { data := none, merge := some [9, 9, 9] }

/-- The engine after `Open` on `staleDir` and `Put("a", "1")`. -/
def staleDB : MiniDB :=
  (((Open staleDir).getD freshDB).Put [97] [49] none).1

/-- A directory without log in which a temporary merge file is left that holds the record
of `Put("z", "0")`. -/
def staleRecordDir : Dir :=
  { data := none, merge := some (logBytes [NewEntry [122] [48] PUT]) }

/-- The engine after `Open` on `staleRecordDir` and `Put("a", "1")`. -/
def staleRecordDB : MiniDB :=
  (((Open staleRecordDir).getD freshDB).Put [97] [49] none).1

theorem getUint32_putUint32 (n : Nat) (h : n < 4294967296) : getUint32 (putUint32 n) = n := by
  simp only [putUint32, getUint32, toByte]
  omega

theorem putUint32_length (n : Nat) : (putUint32 n).length = 4 := rfl

theorem encodeHeader_length (e : Entry) : (encodeHeader e).length = 12 := rfl

theorem Decode_encodeHeader (e : Entry) (h : e.wellFormed) :
    Decode (encodeHeader e) =
      .ok { Key := [], Value := [], KeySize := e.KeySize, ValueSize := e.ValueSize,
            Mark := e.Mark } := by
  obtain ⟨_, _, hk, hv, hm⟩ := h
  have hm' : e.Mark < 4294967296 := by
    rcases hm with h | h <;> rw [h] <;> decide
  have h1 : (encodeHeader e).take 4 = putUint32 e.KeySize := rfl
  have h2 : ((encodeHeader e).drop 4).take 4 = putUint32 e.ValueSize := rfl
  have h3 : ((encodeHeader e).drop 8).take 4 = putUint32 e.Mark := rfl
  unfold Decode
  have hl : (encodeHeader e).length = entryHeaderSize := rfl
  rw [if_pos hl]
  simp only [h1, h2, h3, getUint32_putUint32 _ hk, getUint32_putUint32 _ hv,
    getUint32_putUint32 _ hm', if_pos hm]

theorem Entry.bytes_length (e : Entry) (h : e.wellFormed) : e.bytes.length = e.GetSize := by
  obtain ⟨h1, h2, _⟩ := h
  simp only [Entry.bytes, Entry.GetSize, List.length_append, encodeHeader_length,
    entryHeaderSize, h1, h2]

theorem Entry.Encode_wellFormed (e : Entry) (h : e.wellFormed) : e.Encode = .ok e.bytes := by
  obtain ⟨_, _, hk, hv, _⟩ := h
  simp [Entry.Encode, Entry.bytes, hk, hv]

theorem ReadAt_mid (pre b post : List Byte) :
    ReadAt (pre ++ b ++ post) b.length pre.length = .ok b := by
  unfold ReadAt
  rw [if_pos (by simp)]
  simp

theorem ReadAt_of_eq (file pre b post : List Byte) (n off : Nat)
    (h : file = pre ++ b ++ post) (hn : n = b.length) (ho : off = pre.length) :
    ReadAt file n off = .ok b := by
  subst h hn ho
  exact ReadAt_mid pre b post

theorem DBFile.Read_encoded (df : DBFile) (pre post : List Byte) (e : Entry)
    (hf : df.File = pre ++ e.bytes ++ post) (h : e.wellFormed) :
    df.Read pre.length = .ok e := by
  obtain ⟨hk, hv, _, _, _⟩ := id h
  have hhead : ReadAt df.File entryHeaderSize pre.length = .ok (encodeHeader e) :=
    ReadAt_of_eq df.File pre (encodeHeader e) (e.Key ++ e.Value ++ post) _ _
      (by simp [hf, Entry.bytes]) rfl rfl
  have hkey : ReadAt df.File e.KeySize (pre.length + entryHeaderSize) = .ok e.Key :=
    ReadAt_of_eq df.File (pre ++ encodeHeader e) e.Key (e.Value ++ post) _ _
      (by simp [hf, Entry.bytes]) hk (by simp [encodeHeader_length, entryHeaderSize])
  have hval : ReadAt df.File e.ValueSize (pre.length + entryHeaderSize + e.KeySize)
      = .ok e.Value :=
    ReadAt_of_eq df.File (pre ++ encodeHeader e ++ e.Key) e.Value post _ _
      (by simp [hf, Entry.bytes]) hv
      (by simp [encodeHeader_length, entryHeaderSize, hk, Nat.add_assoc])
  have hk0 : e.KeySize = 0 → e.Key = [] := fun h0 => List.length_eq_zero.mp (hk ▸ h0)
  have hv0 : e.ValueSize = 0 → e.Value = [] := fun h0 => List.length_eq_zero.mp (hv ▸ h0)
  unfold DBFile.Read
  simp only [hhead, Decode_encodeHeader e h, hkey, Except.map]
  by_cases h1 : e.KeySize > 0 <;> by_cases h2 : e.ValueSize > 0
  · simp only [h1, h2, if_true, hval]
  · have hv1 := hv0 (by omega)
    cases e
    simp_all
  · have hk1 := hk0 (by omega)
    rw [show e.KeySize = 0 by omega, Nat.add_zero] at hval
    cases e
    simp_all
  · have hk1 := hk0 (by omega)
    have hv1 := hv0 (by omega)
    cases e
    simp_all

theorem Entry.bytes_ne_nil (e : Entry) : e.bytes ≠ [] := by
  intro h
  have := congrArg List.length h
  simp [Entry.bytes, encodeHeader_length] at this

theorem storeAt_split (file b : List Byte) (off : Nat) (hb : b ≠ []) :
    storeAt file b off =
      (file.take off ++ List.replicate (off - file.length) 0) ++ b ++ file.drop (off + b.length)
    ∧ (file.take off ++ List.replicate (off - file.length) 0).length = off := by
  constructor
  · simp [storeAt, hb]
  · simp only [List.length_append, List.length_take, List.length_replicate]
    omega

theorem storeAt_end (file b : List Byte) : storeAt file b file.length = file ++ b := by
  by_cases hb : b = []
  · simp [storeAt, hb]
  · simp [storeAt, hb]

theorem DBFile.Write_wellFormed (df : DBFile) (e : Entry) (h : e.wellFormed) :
    df.Write e none =
      ({ File := storeAt df.File e.bytes df.Offset, Offset := df.Offset + e.GetSize }, none) := by
  simp [DBFile.Write, Entry.Encode_wellFormed e h, WriteAt]

theorem DBFile.Write_ok (df : DBFile) (e : Entry) (fault : Option Nat)
    (h : (df.Write e fault).2 = none) :
    fault = none ∧ e.KeySize < 4294967296 ∧ e.ValueSize < 4294967296 := by
  unfold DBFile.Write Entry.Encode at h
  by_cases hs : e.KeySize < 4294967296 ∧ e.ValueSize < 4294967296
  · rw [if_pos hs] at h
    cases fault with
    | none => exact ⟨rfl, hs⟩
    | some n => simp [WriteAt] at h
  · rw [if_neg hs] at h
    simp at h

theorem NewEntry_wellFormed (key value : List Byte) (mark : Nat)
    (hk : key.length < 4294967296) (hv : value.length < 4294967296)
    (hm : mark = PUT ∨ mark = DEL) : (NewEntry key value mark).wellFormed :=
  ⟨rfl, rfl, hk, hv, hm⟩

/-- What a successful `Put` of a non-empty key does. -/
theorem MiniDB.Put_ok (db : MiniDB) (key value : List Byte) (fault : Option Nat)
    (hk : key ≠ []) (h : (db.Put key value fault).2 = none) :
    (NewEntry key value PUT).wellFormed ∧
    db.Put key value fault =
      ({ db with
          dbFile := { File := storeAt db.dbFile.File (NewEntry key value PUT).bytes
                                db.dbFile.Offset,
                      Offset := db.dbFile.Offset + (NewEntry key value PUT).GetSize },
          indexes := db.indexes.set key db.dbFile.Offset }, none) := by
  have hlen : ¬ key.length = 0 := fun h0 => hk (List.length_eq_zero.mp h0)
  unfold MiniDB.Put at h ⊢
  rw [if_neg hlen] at h ⊢
  obtain ⟨hf, hks, hvs⟩ := DBFile.Write_ok _ _ _ h
  have hwf : (NewEntry key value PUT).wellFormed :=
    NewEntry_wellFormed key value PUT hks hvs (Or.inl rfl)
  subst hf
  refine ⟨hwf, ?_⟩
  simp only [DBFile.Write_wellFormed _ _ hwf]

/-- What a successful `Del` of an indexed key does. -/
theorem MiniDB.Del_ok (db : MiniDB) (key : List Byte) (fault : Option Nat) (off : Nat)
    (hk : key ≠ []) (hi : db.indexes key = some off) (h : (db.Del key fault).2 = none) :
    (NewEntry key [] DEL).wellFormed ∧
    db.Del key fault =
      ({ db with
          dbFile := { File := storeAt db.dbFile.File (NewEntry key [] DEL).bytes
                                db.dbFile.Offset,
                      Offset := db.dbFile.Offset + (NewEntry key [] DEL).GetSize },
          indexes := db.indexes.delete key }, none) := by
  have hlen : ¬ key.length = 0 := fun h0 => hk (List.length_eq_zero.mp h0)
  have hex : ¬ (db.exist key).2 = some Error.ErrKeyNotExist := by
    simp [MiniDB.exist, hi]
  unfold MiniDB.Del at h ⊢
  rw [if_neg hlen, if_neg hex] at h ⊢
  by_cases hw : (db.dbFile.Write (NewEntry key [] DEL) fault).2 ≠ none
  · rw [if_pos hw] at h
    exact absurd h hw
  · rw [if_neg hw]
    have hw' := not_not.mp hw
    obtain ⟨hf, hks, hvs⟩ := DBFile.Write_ok _ _ _ hw'
    have hwf : (NewEntry key [] DEL).wellFormed :=
      NewEntry_wellFormed key [] DEL hks hvs (Or.inr rfl)
    subst hf
    refine ⟨hwf, ?_⟩
    simp only [DBFile.Write_wellFormed _ _ hwf]

/-- `Del` of a key that the index does not hold. -/
theorem MiniDB.Del_absent (db : MiniDB) (key : List Byte) (fault : Option Nat)
    (hi : db.indexes key = none) : db.Del key fault = (db, none) := by
  unfold MiniDB.Del
  by_cases hlen : key.length = 0
  · rw [if_pos hlen]
  · rw [if_neg hlen]
    simp [MiniDB.exist, hi]

/-- `Get` of an indexed key whose record is in the log at the indexed offset. -/
theorem MiniDB.Get_encoded (db : MiniDB) (key : List Byte) (pre post : List Byte) (e : Entry)
    (hk : key ≠ []) (hi : db.indexes key = some pre.length)
    (hf : db.dbFile.File = pre ++ e.bytes ++ post) (h : e.wellFormed) :
    db.Get key = (e.Value, none) := by
  have hlen : ¬ key.length = 0 := fun h0 => hk (List.length_eq_zero.mp h0)
  unfold MiniDB.Get
  rw [if_neg hlen]
  simp [MiniDB.exist, hi, DBFile.Read_encoded db.dbFile pre post e hf h]

/-- `Get` of a key that the index does not hold. -/
theorem MiniDB.Get_absent (db : MiniDB) (key : List Byte)
    (hk : key ≠ []) (hi : db.indexes key = none) :
    db.Get key = ([], some Error.ErrKeyNotExist) := by
  have hlen : ¬ key.length = 0 := fun h0 => hk (List.length_eq_zero.mp h0)
  unfold MiniDB.Get
  rw [if_neg hlen]
  simp [MiniDB.exist, hi]

theorem logBytes_append (a b : List Entry) : logBytes (a ++ b) = logBytes a ++ logBytes b := by
  induction a with
  | nil => rfl
  | cons r a ih => simp [logBytes, ih]

theorem Entry.GetSize_pos (e : Entry) : 0 < e.GetSize := by
  simp [Entry.GetSize, entryHeaderSize]

theorem Index.delete_set (m : Index) (key : List Byte) (off : Nat) :
    (m.set key off).delete key = m.delete key := by
  funext k
  simp only [Index.delete, Index.set]
  split <;> rfl

theorem DBFile.Read_end (df : DBFile) (off : Nat) (h : df.File.length ≤ off) :
    df.Read off = .error (none, Error.EOF) := by
  unfold DBFile.Read ReadAt
  rw [if_neg (by simp [entryHeaderSize]; omega)]

/-- The scan of `Merge` over a log of well-formed records keeps the live ones, in order. -/
theorem mergeScan_log (indexes : Index) (rs : List Entry) :
    ∀ (pre : List Byte) (fuel : Nat) (acc : List Entry) (df : DBFile),
      (∀ r ∈ rs, r.wellFormed) → df.File = pre ++ logBytes rs → (logBytes rs).length < fuel →
      mergeScan fuel df indexes pre.length acc =
        some (.ok (acc ++ liveRecords indexes rs pre.length)) := by
  induction rs with
  | nil =>
    intro pre fuel acc df _ hf hfuel
    obtain ⟨fuel, rfl⟩ : ∃ n, fuel = n + 1 := ⟨fuel - 1, by omega⟩
    have hread := DBFile.Read_end df pre.length (by simp [hf, logBytes])
    simp [mergeScan, hread, liveRecords]
  | cons r rs ih =>
    intro pre fuel acc df hwf hf hfuel
    have hr : r.wellFormed := hwf r (List.mem_cons_self _ _)
    have hlen := Entry.bytes_length r hr
    have hpos := Entry.GetSize_pos r
    simp only [logBytes, List.length_append] at hfuel
    obtain ⟨fuel, rfl⟩ : ∃ n, fuel = n + 1 := ⟨fuel - 1, by omega⟩
    have hread : df.Read pre.length = .ok r :=
      DBFile.Read_encoded df pre (logBytes rs) r (by simp [hf, logBytes]) hr
    have hoff : pre.length + r.GetSize = (pre ++ r.bytes).length := by
      simp [hlen]
    have hrec : ∀ acc, mergeScan fuel df indexes (pre.length + r.GetSize) acc =
        some (.ok (acc ++ liveRecords indexes rs (pre.length + r.GetSize))) := by
      intro acc
      rw [hoff]
      exact ih (pre ++ r.bytes) fuel acc df
        (fun x hx => hwf x (List.mem_cons_of_mem _ hx)) (by simp [hf, logBytes]) (by omega)
    simp only [mergeScan, hread, liveRecords]
    by_cases hlive : indexes r.Key = some pre.length
    · simp only [hlive, if_true, hrec, List.append_assoc, List.singleton_append]
    · simp only [hlive, if_false, hrec]

/-- The loop of `loadIndexesFromFile` over a log of well-formed records follows the replay
rule. -/
theorem loadLoop_log (rs : List Entry) :
    ∀ (pre : List Byte) (fuel : Nat) (indexes : Index) (df : DBFile),
      (∀ r ∈ rs, r.wellFormed) → df.File = pre ++ logBytes rs → (logBytes rs).length < fuel →
      loadLoop fuel df indexes pre.length = some (replay rs pre.length indexes) := by
  induction rs with
  | nil =>
    intro pre fuel indexes df _ hf hfuel
    obtain ⟨fuel, rfl⟩ : ∃ n, fuel = n + 1 := ⟨fuel - 1, by omega⟩
    have hread := DBFile.Read_end df pre.length (by simp [hf, logBytes])
    simp [loadLoop, hread, replay]
  | cons r rs ih =>
    intro pre fuel indexes df hwf hf hfuel
    have hr : r.wellFormed := hwf r (List.mem_cons_self _ _)
    have hlen := Entry.bytes_length r hr
    have hpos := Entry.GetSize_pos r
    simp only [logBytes, List.length_append] at hfuel
    obtain ⟨fuel, rfl⟩ : ∃ n, fuel = n + 1 := ⟨fuel - 1, by omega⟩
    have hread : df.Read pre.length = .ok r :=
      DBFile.Read_encoded df pre (logBytes rs) r (by simp [hf, logBytes]) hr
    have hoff : pre.length + r.GetSize = (pre ++ r.bytes).length := by
      simp [hlen]
    have hrec : ∀ indexes, loadLoop fuel df indexes (pre.length + r.GetSize) =
        some (replay rs (pre.length + r.GetSize) indexes) := by
      intro indexes
      rw [hoff]
      exact ih (pre ++ r.bytes) fuel indexes df
        (fun x hx => hwf x (List.mem_cons_of_mem _ hx)) (by simp [hf, logBytes]) (by omega)
    simp only [loadLoop, hread, replay, hrec]
    by_cases hdel : r.Mark = DEL
    · simp only [hdel, if_true, Index.delete_set]
    · simp only [hdel, if_false]

/-- The write loop of `Merge` on a device that never fails appends the records and maps
each key to the offset of its record. -/
theorem mergeWrite_noFault (vs : List Entry) :
    ∀ (df : DBFile) (indexes : Index),
      (∀ r ∈ vs, r.wellFormed) → df.Offset = df.File.length →
      mergeWrite vs df indexes noFault =
        ({ File := df.File ++ logBytes vs, Offset := df.File.length + (logBytes vs).length },
          reindex vs df.Offset indexes, none) := by
  induction vs with
  | nil =>
    intro df indexes _ hoff
    cases df
    simp_all [mergeWrite, logBytes, reindex]
  | cons r vs ih =>
    intro df indexes hwf hoff
    have hr : r.wellFormed := hwf r (List.mem_cons_self _ _)
    have hlen := Entry.bytes_length r hr
    have hfun : (fun i => noFault (i + 1)) = noFault := rfl
    have h0 : noFault 0 = none := rfl
    simp only [mergeWrite, hfun, h0, DBFile.Write_wellFormed df r hr]
    rw [hoff, storeAt_end]
    have := ih { File := df.File ++ r.bytes, Offset := df.File.length + r.GetSize }
      (indexes.set r.Key df.File.length)
      (fun x hx => hwf x (List.mem_cons_of_mem _ hx)) (by simp [hlen])
    simp [this, logBytes, reindex, hlen, Nat.add_assoc]

/-- A write loop that returns no error met no fault. -/
theorem mergeWrite_ok (vs : List Entry) :
    ∀ (df : DBFile) (indexes : Index) (faults : Nat → Option Nat),
      (mergeWrite vs df indexes faults).2.2 = none →
      mergeWrite vs df indexes faults = mergeWrite vs df indexes noFault := by
  induction vs with
  | nil => intro df indexes faults _; rfl
  | cons r vs ih =>
    intro df indexes faults h
    simp only [mergeWrite] at h ⊢
    by_cases hw : (df.Write r (faults 0)).2 ≠ none
    · rw [if_pos hw] at h
      exact absurd h hw
    · rw [if_neg hw] at h
      obtain ⟨hf, _, _⟩ := DBFile.Write_ok _ _ _ (not_not.mp hw)
      have hfun : (fun i => noFault (i + 1)) = noFault := rfl
      have h0 : noFault 0 = faults 0 := by rw [hf]; rfl
      rw [if_neg hw, h0, if_neg hw, hfun]
      exact ih _ _ _ h

theorem logBytes_length_cons (r : Entry) (rs : List Entry) (h : r.wellFormed) :
    (logBytes (r :: rs)).length = r.GetSize + (logBytes rs).length := by
  simp [logBytes, Entry.bytes_length r h]

theorem replay_append (a b : List Entry) :
    ∀ (off : Nat) (indexes : Index), (∀ r ∈ a, r.wellFormed) →
      replay (a ++ b) off indexes = replay b (off + (logBytes a).length) (replay a off indexes) := by
  induction a with
  | nil => intro off indexes _; simp [replay, logBytes]
  | cons r a ih =>
    intro off indexes hwf
    have hr := hwf r (List.mem_cons_self _ _)
    rw [List.cons_append, logBytes_length_cons r a hr, ← Nat.add_assoc]
    simp only [replay]
    exact ih _ _ (fun x hx => hwf x (List.mem_cons_of_mem _ hx))

theorem liveRecords_append (indexes : Index) (a b : List Entry) :
    ∀ (off : Nat), (∀ r ∈ a, r.wellFormed) →
      liveRecords indexes (a ++ b) off =
        liveRecords indexes a off ++ liveRecords indexes b (off + (logBytes a).length) := by
  induction a with
  | nil => intro off _; simp [liveRecords, logBytes]
  | cons r a ih =>
    intro off hwf
    have hr := hwf r (List.mem_cons_self _ _)
    have hrest := ih (off + r.GetSize) (fun x hx => hwf x (List.mem_cons_of_mem _ hx))
    rw [List.cons_append, logBytes_length_cons r a hr, ← Nat.add_assoc]
    simp only [liveRecords]
    split
    · rw [hrest, List.cons_append]
    · exact hrest

theorem reindex_append (a b : List Entry) :
    ∀ (off : Nat) (indexes : Index), (∀ r ∈ a, r.wellFormed) →
      reindex (a ++ b) off indexes =
        reindex b (off + (logBytes a).length) (reindex a off indexes) := by
  induction a with
  | nil => intro off indexes _; simp [reindex, logBytes]
  | cons r a ih =>
    intro off indexes hwf
    have hr := hwf r (List.mem_cons_self _ _)
    rw [List.cons_append, logBytes_length_cons r a hr, ← Nat.add_assoc]
    simp only [reindex]
    exact ih _ _ (fun x hx => hwf x (List.mem_cons_of_mem _ hx))

theorem reindex_other (vs : List Entry) (k : List Byte) :
    ∀ (off : Nat) (indexes : Index), (∀ r ∈ vs, r.Key ≠ k) →
      reindex vs off indexes k = indexes k := by
  induction vs with
  | nil => intro off indexes _; rfl
  | cons r vs ih =>
    intro off indexes h
    have hr : k ≠ r.Key := fun e => h r (List.mem_cons_self _ _) e.symm
    simp only [reindex]
    rw [ih _ _ (fun x hx => h x (List.mem_cons_of_mem _ hx))]
    simp [Index.set, hr]

/-- The record after which no record of the same key is written gets its own offset. -/
theorem reindex_at (a b : List Entry) (r : Entry) (off : Nat) (indexes : Index)
    (hwf : ∀ x ∈ a, x.wellFormed) (hb : ∀ x ∈ b, x.Key ≠ r.Key) :
    reindex (a ++ r :: b) off indexes r.Key = some (off + (logBytes a).length) := by
  rw [reindex_append a (r :: b) off indexes hwf]
  simp only [reindex]
  rw [reindex_other b r.Key _ _ hb]
  simp [Index.set]

/-- A live record is a record of the log, and the index maps its key to an offset that is
not before the start of the scan. -/
theorem mem_liveRecords (indexes : Index) (rs : List Entry) :
    ∀ (off : Nat) (r : Entry), r ∈ liveRecords indexes rs off →
      r ∈ rs ∧ ∃ o, off ≤ o ∧ indexes r.Key = some o := by
  induction rs with
  | nil => intro off r h; simp [liveRecords] at h
  | cons x rs ih =>
    intro off r h
    have hpos := Entry.GetSize_pos x
    simp only [liveRecords] at h
    by_cases hx : indexes x.Key = some off
    · rw [if_pos hx] at h
      rcases List.mem_cons.mp h with rfl | h
      · exact ⟨List.mem_cons_self _ _, off, Nat.le_refl _, hx⟩
      · obtain ⟨hm, o, ho, hi⟩ := ih _ r h
        exact ⟨List.mem_cons_of_mem _ hm, o, by omega, hi⟩
    · rw [if_neg hx] at h
      obtain ⟨hm, o, ho, hi⟩ := ih _ r h
      exact ⟨List.mem_cons_of_mem _ hm, o, by omega, hi⟩

/-- A record is live at most once: behind a live record no live record has its key. -/
theorem liveRecords_later_keys (indexes : Index) (rs : List Entry) :
    ∀ (off : Nat) (a b : List Entry) (r : Entry), liveRecords indexes rs off = a ++ r :: b →
      ∀ x ∈ b, x.Key ≠ r.Key := by
  induction rs with
  | nil => intro off a b r h; simp [liveRecords] at h
  | cons y rs ih =>
    intro off a b r h x hx
    have hpos := Entry.GetSize_pos y
    simp only [liveRecords] at h
    by_cases hy : indexes y.Key = some off
    · rw [if_pos hy] at h
      cases a with
      | nil =>
        simp only [List.nil_append, List.cons.injEq] at h
        obtain ⟨rfl, hb⟩ := h
        obtain ⟨_, o, ho, hi⟩ := mem_liveRecords indexes rs _ x (hb ▸ hx)
        intro hkey
        rw [hkey, hy] at hi
        injection hi with hi
        omega
      | cons z a =>
        simp only [List.cons_append, List.cons.injEq] at h
        exact ih _ a b r h.2 x hx
    · rw [if_neg hy] at h
      exact ih _ a b r h x hx

/-- Index validity of a replayed index: a key is mapped either as before the replay, or to
the offset of a record of that key that is not a `DELETE`. -/
theorem replay_some (rs : List Entry) :
    ∀ (off : Nat) (indexes : Index) (k : List Byte) (o : Nat),
      (∀ r ∈ rs, r.wellFormed) → replay rs off indexes k = some o →
      indexes k = some o ∨
        ∃ pre r post, rs = pre ++ r :: post ∧ o = off + (logBytes pre).length ∧
          r.Key = k ∧ r.Mark = PUT := by
  induction rs with
  | nil => intro off indexes k o _ h; exact Or.inl h
  | cons x rs ih =>
    intro off indexes k o hwf h
    have hx := hwf x (List.mem_cons_self _ _)
    simp only [replay] at h
    rcases ih _ _ k o (fun y hy => hwf y (List.mem_cons_of_mem _ hy)) h with h1 | h1
    · by_cases hdel : x.Mark = DEL
      · rw [if_pos hdel] at h1
        simp only [Index.delete] at h1
        split at h1
        · exact absurd h1 (by simp)
        · exact Or.inl h1
      · rw [if_neg hdel] at h1
        simp only [Index.set] at h1
        split at h1
        · rename_i hk
          injection h1 with h1
          refine Or.inr ⟨[], x, rs, rfl, by simp [logBytes, h1], hk.symm, ?_⟩
          exact hx.2.2.2.2.resolve_right hdel
        · exact Or.inl h1
    · obtain ⟨pre, r, post, hrs, ho, hk, hm⟩ := h1
      refine Or.inr ⟨x :: pre, r, post, by simp [hrs], ?_, hk, hm⟩
      rw [ho, logBytes_length_cons x pre hx, Nat.add_assoc]

/-- A replay maps a key as before, or to an offset that is not before its start. -/
theorem replay_some_ge (rs : List Entry) (off : Nat) (indexes : Index) (k : List Byte)
    (o : Nat) (hwf : ∀ r ∈ rs, r.wellFormed) (h : replay rs off indexes k = some o) :
    indexes k = some o ∨ off ≤ o := by
  rcases replay_some rs off indexes k o hwf h with h1 | ⟨_, _, _, _, ho, _, _⟩
  · exact Or.inl h1
  · exact Or.inr (by omega)

/-- In a replayed index a live record is a `PUT` record. -/
theorem replay_live_mark (pre post : List Entry) (r : Entry)
    (hwf : ∀ x ∈ pre ++ r :: post, x.wellFormed)
    (h : replay (pre ++ r :: post) 0 Index.empty r.Key = some (logBytes pre).length) :
    r.Mark = PUT := by
  have hr : r.wellFormed := hwf r (by simp)
  have hpos := Entry.GetSize_pos r
  rw [replay_append pre (r :: post) 0 Index.empty
    (fun x hx => hwf x (List.mem_append_left _ hx))] at h
  simp only [replay, Nat.zero_add] at h
  by_cases hdel : r.Mark = DEL
  · rw [if_pos hdel] at h
    rcases replay_some_ge post _ _ _ _
      (fun x hx => hwf x (List.mem_append_right _ (List.mem_cons_of_mem _ hx))) h with h1 | h1
    · simp [Index.delete] at h1
    · omega
  · exact hr.2.2.2.2.resolve_right hdel

theorem Open_emptyDir : Open emptyDir = some freshDB := rfl

theorem logBytes_eq_nil (rs : List Entry) (h : logBytes rs = []) : rs = [] := by
  cases rs with
  | nil => rfl
  | cons r rs =>
    have := congrArg List.length h
    simp [logBytes, Entry.bytes, encodeHeader_length] at this

theorem IsLog.append (db : MiniDB) (rs : List Entry) (e : Entry) (indexes : Index)
    (h : IsLog db rs) (he : e.wellFormed) :
    IsLog { db with
              dbFile := { File := storeAt db.dbFile.File e.bytes db.dbFile.Offset,
                          Offset := db.dbFile.Offset + e.GetSize },
              indexes := indexes } (rs ++ [e]) := by
  obtain ⟨hwf, hf, hoff⟩ := h
  refine ⟨?_, ?_, ?_⟩
  · intro r hr
    rcases List.mem_append.mp hr with hr | hr
    · exact hwf r hr
    · rw [List.mem_singleton.mp hr]; exact he
  · simp only [hoff, storeAt_end, hf, logBytes_append, logBytes, List.append_nil]
  · simp only [hoff, storeAt_end, List.length_append, Entry.bytes_length e he]

/-- The invariant of the reachable states: the log is a sequence of well-formed records,
the index is their replay, and no temporary merge file exists. -/
theorem Reachable.log {db : MiniDB} (h : Reachable db) :
    ∃ rs, IsLog db rs ∧ db.indexes = replay rs 0 Index.empty ∧ db.mergeFile = none := by
  induction h with
  | init db hopen =>
    rw [Open_emptyDir] at hopen
    injection hopen with hopen
    subst hopen
    exact ⟨[], ⟨by simp, rfl, rfl⟩, rfl, rfl⟩
  | put db key value fault _ hput ih =>
    obtain ⟨rs, hlog, hidx, hmf⟩ := ih
    by_cases hk : key = []
    · subst hk
      exact ⟨rs, hlog, hidx, hmf⟩
    · obtain ⟨hwf, heq⟩ := MiniDB.Put_ok db key value fault hk hput
      rw [heq]
      refine ⟨rs ++ [NewEntry key value PUT], IsLog.append db rs _ _ hlog hwf, ?_, hmf⟩
      have hne : ¬ (NewEntry key value PUT).Mark = DEL := by simp [NewEntry, PUT, DEL]
      simp only [replay_append rs _ 0 Index.empty hlog.1, replay, if_neg hne, ← hidx,
        Nat.zero_add, ← hlog.2.1, ← hlog.2.2]
      rfl
  | del db key fault _ hdel ih =>
    obtain ⟨rs, hlog, hidx, hmf⟩ := ih
    by_cases hk : key = []
    · subst hk
      exact ⟨rs, hlog, hidx, hmf⟩
    · cases hi : db.indexes key with
      | none =>
        rw [MiniDB.Del_absent db key fault hi]
        exact ⟨rs, hlog, hidx, hmf⟩
      | some off =>
        obtain ⟨hwf, heq⟩ := MiniDB.Del_ok db key fault off hk hi hdel
        rw [heq]
        refine ⟨rs ++ [NewEntry key [] DEL], IsLog.append db rs _ _ hlog hwf, ?_, hmf⟩
        have hm : (NewEntry key [] DEL).Mark = DEL := rfl
        simp only [replay_append rs _ 0 Index.empty hlog.1, replay, if_pos hm, ← hidx]
        rfl

theorem liveRecords_wellFormed (indexes : Index) (rs : List Entry) (off : Nat)
    (hwf : ∀ r ∈ rs, r.wellFormed) : ∀ r ∈ liveRecords indexes rs off, r.wellFormed :=
  fun r hr => hwf r (mem_liveRecords indexes rs off r hr).1

theorem mergeScan_isLog (db : MiniDB) (rs : List Entry) (h : IsLog db rs) :
    mergeScan (db.dbFile.File.length + 1) db.dbFile db.indexes 0 [] =
      some (.ok (liveRecords db.indexes rs 0)) := by
  have := mergeScan_log db.indexes rs [] (db.dbFile.File.length + 1) [] db.dbFile h.1
    (by simp [h.2.1]) (by simp [h.2.1])
  simpa using this

/-- `Merge` of a log of well-formed records on a device that never fails. -/
theorem MiniDB.Merge_noFault (db : MiniDB) (rs : List Entry) (h : IsLog db rs) :
    db.Merge noFault =
      some (if liveRecords db.indexes rs 0 = [] then (db, none)
            else (mergedDB db (liveRecords db.indexes rs 0), none)) := by
  unfold MiniDB.Merge
  by_cases h0 : db.dbFile.Offset = 0
  · have hrs : rs = [] := by
      apply logBytes_eq_nil
      apply List.length_eq_zero.mp
      rw [← h.2.1, ← h.2.2, h0]
    rw [if_pos h0, hrs]
    simp [liveRecords]
  · rw [if_neg h0, mergeScan_isLog db rs h]
    by_cases hl : liveRecords db.indexes rs 0 = []
    · simp [hl]
    · have hpos : (liveRecords db.indexes rs 0).length > 0 :=
        List.length_pos.mpr hl
      simp only [hpos, if_true, hl, if_false]
      rw [mergeWrite_noFault _ _ _ (liveRecords_wellFormed _ _ _ h.1) rfl]
      simp [mergedDB, newInternal]

/-- A `Merge` that returns no error does what it does on a device that never fails. -/
theorem MiniDB.Merge_ok (db db' : MiniDB) (faults : Nat → Option Nat)
    (hm : db.Merge faults = some (db', none)) : db.Merge noFault = some (db', none) := by
  unfold MiniDB.Merge at hm ⊢
  by_cases h0 : db.dbFile.Offset = 0
  · rw [if_pos h0] at hm ⊢
    exact hm
  · rw [if_neg h0] at hm ⊢
    cases hs : mergeScan (db.dbFile.File.length + 1) db.dbFile db.indexes 0 [] with
    | none => rw [hs] at hm; exact absurd hm (by simp)
    | some res =>
      rw [hs] at hm
      cases res with
      | error err => exact hm
      | ok validEntries =>
        simp only at hm ⊢
        by_cases hv : validEntries.length > 0
        · rw [if_pos hv] at hm ⊢
          cases hw : mergeWrite validEntries (newInternal (db.mergeFile.getD [])) db.indexes
              faults with
          | mk mdf rest =>
            cases rest with
            | mk indexes err =>
              cases err with
              | some e => rw [hw] at hm; simp at hm
              | none =>
                rw [← mergeWrite_ok _ _ _ faults (by rw [hw])]
                exact hm
        · rw [if_neg hv] at hm ⊢
          exact hm

/-- A live record stands in the log at the offset that the index holds for its key. -/
theorem mem_liveRecords_split (indexes : Index) (rs : List Entry) :
    ∀ (off : Nat) (r : Entry), (∀ x ∈ rs, x.wellFormed) → r ∈ liveRecords indexes rs off →
      ∃ a b, rs = a ++ r :: b ∧ indexes r.Key = some (off + (logBytes a).length) := by
  induction rs with
  | nil => intro off r _ h; simp [liveRecords] at h
  | cons x rs ih =>
    intro off r hwf h
    have hx := hwf x (List.mem_cons_self _ _)
    have hrest : r ∈ liveRecords indexes rs (off + x.GetSize) →
        ∃ a b, x :: rs = a ++ r :: b ∧ indexes r.Key = some (off + (logBytes a).length) := by
      intro hr
      obtain ⟨a, b, hrs, hi⟩ := ih _ r (fun y hy => hwf y (List.mem_cons_of_mem _ hy)) hr
      refine ⟨x :: a, b, by simp [hrs], ?_⟩
      rw [hi, logBytes_length_cons x a hx, Nat.add_assoc]
    simp only [liveRecords] at h
    by_cases hlive : indexes x.Key = some off
    · rw [if_pos hlive] at h
      rcases List.mem_cons.mp h with rfl | h
      · exact ⟨[], rs, rfl, by simp [logBytes, hlive]⟩
      · exact hrest h
    · rw [if_neg hlive] at h
      exact hrest h

/-- A record that the index points at is among the live records. -/
theorem liveRecords_split (indexes : Index) (a b : List Entry) (r : Entry)
    (hwf : ∀ x ∈ a, x.wellFormed) (hi : indexes r.Key = some (logBytes a).length) :
    liveRecords indexes (a ++ r :: b) 0 =
      liveRecords indexes a 0 ++
        r :: liveRecords indexes b ((logBytes a).length + r.GetSize) := by
  rw [liveRecords_append indexes a (r :: b) 0 hwf]
  simp only [liveRecords, Nat.zero_add, hi, if_true]

/-- In a reachable state with a key in the index the log has a live record. -/
theorem Reachable.live_ne_nil {db : MiniDB} (rs : List Entry) (hlog : IsLog db rs)
    (hidx : db.indexes = replay rs 0 Index.empty) (hlive : ∃ k, db.indexes k ≠ none) :
    liveRecords db.indexes rs 0 ≠ [] := by
  obtain ⟨k, hk⟩ := hlive
  obtain ⟨o, ho⟩ := Option.ne_none_iff_exists'.mp hk
  have hrep : replay rs 0 Index.empty k = some o := by rw [← hidx]; exact ho
  rcases replay_some rs 0 Index.empty k o hlog.1 hrep with h1 | ⟨a, r, b, hrs, hoff, hkey, _⟩
  · simp [Index.empty] at h1
  · have hi : db.indexes r.Key = some (logBytes a).length := by
      rw [hkey, ho, hoff, Nat.zero_add]
    rw [hrs, liveRecords_split db.indexes a b r
      (fun x hx => hlog.1 x (hrs ▸ List.mem_append_left _ hx)) hi]
    simp

theorem IsLog.unique_aux (rs : List Entry) :
    ∀ (rs' : List Entry), (∀ r ∈ rs, r.wellFormed) → (∀ r ∈ rs', r.wellFormed) →
      logBytes rs = logBytes rs' → rs = rs' := by
  induction rs with
  | nil => intro rs' _ _ h; exact (logBytes_eq_nil rs' h.symm).symm
  | cons r rs ih =>
    intro rs' hwf hwf' h
    cases rs' with
    | nil => exact logBytes_eq_nil _ h
    | cons r' rs' =>
      have hr := hwf r (List.mem_cons_self _ _)
      have hr' := hwf' r' (List.mem_cons_self _ _)
      have h1 := DBFile.Read_encoded { File := logBytes (r :: rs), Offset := 0 } [] (logBytes rs)
        r (by simp [logBytes]) hr
      have h2 := DBFile.Read_encoded { File := logBytes (r :: rs), Offset := 0 } []
        (logBytes rs') r' (by rw [h]; simp [logBytes]) hr'
      have hrr : r = r' := by
        rw [h1] at h2
        injection h2
      subst hrr
      have htail : logBytes rs = logBytes rs' := by
        simp only [logBytes] at h
        exact List.append_cancel_left h
      rw [ih rs' (fun x hx => hwf x (List.mem_cons_of_mem _ hx))
        (fun x hx => hwf' x (List.mem_cons_of_mem _ hx)) htail]

/-- A log is the sequence of one list of well-formed records only. -/
theorem IsLog.unique {db : MiniDB} {rs rs' : List Entry} (h : IsLog db rs) (h' : IsLog db rs') :
    rs = rs' :=
  IsLog.unique_aux rs rs' h.1 h'.1 (by rw [← h.2.1, ← h'.2.1])

/-- After the rewrite the index maps the key of each live record to the offset of that
record in the new log. -/
theorem mergedDB_index (db : MiniDB) (rs pre post : List Entry) (r : Entry)
    (hlog : IsLog db rs) (hl : liveRecords db.indexes rs 0 = pre ++ r :: post) :
    (mergedDB db (liveRecords db.indexes rs 0)).indexes r.Key =
      some ((db.mergeFile.getD []).length + (logBytes pre).length) := by
  have hwf := liveRecords_wellFormed db.indexes rs 0 hlog.1
  have hlater := liveRecords_later_keys db.indexes rs 0 pre post r hl
  rw [hl] at hwf
  simp only [mergedDB, hl]
  exact reindex_at pre post r _ db.indexes
    (fun x hx => hwf x (List.mem_append_left _ hx)) hlater

/-- After the rewrite `Get` of the key of a live record returns the value of that record. -/
theorem mergedDB_get (db : MiniDB) (rs pre post : List Entry) (r : Entry)
    (hlog : IsLog db rs) (hl : liveRecords db.indexes rs 0 = pre ++ r :: post)
    (hk : r.Key ≠ []) :
    (mergedDB db (liveRecords db.indexes rs 0)).Get r.Key = (r.Value, none) := by
  have hwf := liveRecords_wellFormed db.indexes rs 0 hlog.1
  have hi := mergedDB_index db rs pre post r hlog hl
  rw [hl] at hwf
  apply MiniDB.Get_encoded _ r.Key (db.mergeFile.getD [] ++ logBytes pre) (logBytes post) r hk
  · rw [hi, List.length_append]
  · simp [mergedDB, newInternal, hl, logBytes_append, logBytes]
  · exact hwf r (by simp)

/-- The rewrite leaves a key alone that no live record has. -/
theorem mergedDB_index_other (db : MiniDB) (rs : List Entry) (k : List Byte)
    (hi : db.indexes k = none) :
    (mergedDB db (liveRecords db.indexes rs 0)).indexes k = none := by
  simp only [mergedDB]
  rw [reindex_other _ k _ _ ?_, hi]
  intro r hr hkey
  obtain ⟨_, o, _, ho⟩ := mem_liveRecords db.indexes rs 0 r hr
  rw [hkey, hi] at ho
  exact absurd ho (by simp)

/-- In a reachable state `Get` of an indexed key returns the value of a record of the log
that the index points at. -/
theorem Reachable.get_indexed {db : MiniDB} (rs : List Entry) (k : List Byte) (o : Nat)
    (hlog : IsLog db rs) (hidx : db.indexes = replay rs 0 Index.empty) (hk : k ≠ [])
    (ho : db.indexes k = some o) :
    ∃ a r b, rs = a ++ r :: b ∧ r.Key = k ∧ db.indexes r.Key = some (logBytes a).length ∧
      db.Get k = (r.Value, none) := by
  have hrep : replay rs 0 Index.empty k = some o := by rw [← hidx]; exact ho
  rcases replay_some rs 0 Index.empty k o hlog.1 hrep with h1 | ⟨a, r, b, hrs, hoff, hkey, _⟩
  · simp [Index.empty] at h1
  · have hi : db.indexes k = some (logBytes a).length := by
      rw [ho, hoff, Nat.zero_add]
    refine ⟨a, r, b, hrs, hkey, hkey ▸ hi, ?_⟩
    apply MiniDB.Get_encoded db k (logBytes a) (logBytes b) r hk hi
    · rw [hlog.2.1, hrs]
      simp [logBytes_append, logBytes]
    · exact hlog.1 r (by simp [hrs])

/-- The rewrite keeps what `Get` returns, for every key of a reachable state. -/
theorem Reachable.get_after_merge {db : MiniDB} (rs : List Entry) (k : List Byte)
    (hlog : IsLog db rs) (hidx : db.indexes = replay rs 0 Index.empty) :
    (mergedDB db (liveRecords db.indexes rs 0)).Get k = db.Get k := by
  by_cases hk : k = []
  · subst hk; rfl
  · cases ho : db.indexes k with
    | none =>
      rw [MiniDB.Get_absent db k hk ho,
        MiniDB.Get_absent _ k hk (mergedDB_index_other db rs k ho)]
    | some o =>
      obtain ⟨a, r, b, hrs, hkey, hi, hget⟩ := Reachable.get_indexed rs k o hlog hidx hk ho
      have hsplit := liveRecords_split db.indexes a b r
        (fun x hx => hlog.1 x (hrs ▸ List.mem_append_left _ hx)) hi
      rw [← hrs] at hsplit
      rw [hget, ← hkey]
      exact minidb.mergedDB_get db rs _ _ r hlog hsplit (hkey ▸ hk)

theorem DBFile.Read_ok_bound (df : DBFile) (off : Nat) (e : Entry) (h : df.Read off = .ok e) :
    off + entryHeaderSize ≤ df.File.length := by
  by_contra hlt
  have hread : ReadAt df.File entryHeaderSize off = .error Error.EOF := by
    simp [ReadAt, hlt]
  simp [DBFile.Read, hread] at h

/-- The scan of `Merge` never runs out of fuel when it is given more fuel than bytes are
left in the file. -/
theorem mergeScan_fuel (df : DBFile) (indexes : Index) :
    ∀ (fuel off : Nat) (acc : List Entry), 0 < fuel → df.File.length < off + fuel →
      (mergeScan fuel df indexes off acc).isSome = true := by
  intro fuel
  induction fuel with
  | zero => intro off acc h; exact absurd h (by decide)
  | succ fuel ih =>
    intro off acc _ hlen
    simp only [mergeScan]
    cases hr : df.Read off with
    | error p =>
      obtain ⟨_, err⟩ := p
      by_cases he : err = Error.EOF <;> simp [he]
    | ok e =>
      have hb := DBFile.Read_ok_bound df off e hr
      have hpos : entryHeaderSize ≤ e.GetSize := by
        simp only [Entry.GetSize]; omega
      simp only [entryHeaderSize] at hb hpos
      exact ih _ _ (by omega) (by omega)

/-- The loop of `loadIndexesFromFile` never runs out of fuel when it is given more fuel than
bytes are left in the file. -/
theorem loadLoop_fuel (df : DBFile) :
    ∀ (fuel off : Nat) (indexes : Index), 0 < fuel → df.File.length < off + fuel →
      (loadLoop fuel df indexes off).isSome = true := by
  intro fuel
  induction fuel with
  | zero => intro off indexes h; exact absurd h (by decide)
  | succ fuel ih =>
    intro off indexes _ hlen
    simp only [loadLoop]
    cases hr : df.Read off with
    | error p =>
      obtain ⟨_, err⟩ := p
      by_cases he : err = Error.EOF <;> simp [he]
    | ok e =>
      have hb := DBFile.Read_ok_bound df off e hr
      have hpos : entryHeaderSize ≤ e.GetSize := by
        simp only [Entry.GetSize]; omega
      simp only [entryHeaderSize] at hb hpos
      exact ih _ _ (by omega) (by omega)

/-- `Open` returns an engine for every directory. -/
theorem Open_returns (dir : Dir) : (Open dir).isSome = true := by
  simp only [Open, MiniDB.loadIndexesFromFile, Option.isSome_map']
  exact loadLoop_fuel _ _ 0 _ (by omega) (by omega)

/-- `Merge` returns in every engine state, whatever the log holds. -/
theorem MiniDB.Merge_returns (db : MiniDB) (faults : Nat → Option Nat) :
    (db.Merge faults).isSome = true := by
  unfold MiniDB.Merge
  by_cases h0 : db.dbFile.Offset = 0
  · rw [if_pos h0]; rfl
  · rw [if_neg h0]
    have hs := mergeScan_fuel db.dbFile db.indexes (db.dbFile.File.length + 1) 0 []
      (by omega) (by omega)
    cases hscan : mergeScan (db.dbFile.File.length + 1) db.dbFile db.indexes 0 [] with
    | none => rw [hscan] at hs; exact absurd hs (by simp)
    | some res =>
      cases res with
      | error err => rfl
      | ok validEntries =>
        simp only
        by_cases hv : validEntries.length > 0
        · rw [if_pos hv]
          cases hw : mergeWrite validEntries (newInternal (db.mergeFile.getD [])) db.indexes
              faults with
          | mk mdf rest =>
            cases rest with
            | mk indexes err =>
              cases err <;> rfl
        · rw [if_neg hv]; rfl

theorem replay_other (rs : List Entry) (k : List Byte) :
    ∀ (off : Nat) (indexes : Index), (∀ x ∈ rs, x.Key ≠ k) →
      replay rs off indexes k = indexes k := by
  induction rs with
  | nil => intro off indexes _; rfl
  | cons r rs ih =>
    intro off indexes h
    have hr : k ≠ r.Key := fun e => h r (List.mem_cons_self _ _) e.symm
    simp only [replay]
    rw [ih _ _ (fun x hx => h x (List.mem_cons_of_mem _ hx))]
    split <;> simp [Index.set, Index.delete, hr]

/-- Index validity of a replayed index, with recency: a key is mapped either as before the
replay, no record having that key, or to the offset of the last record of that key, which
is a `PUT`. -/
theorem replay_some_last (rs : List Entry) :
    ∀ (off : Nat) (indexes : Index) (k : List Byte) (o : Nat),
      (∀ r ∈ rs, r.wellFormed) → replay rs off indexes k = some o →
      (indexes k = some o ∧ ∀ x ∈ rs, x.Key ≠ k) ∨
        ∃ pre r post, rs = pre ++ r :: post ∧ o = off + (logBytes pre).length ∧
          r.Key = k ∧ r.Mark = PUT ∧ ∀ x ∈ post, x.Key ≠ k := by
  induction rs with
  | nil => intro off indexes k o _ h; exact Or.inl ⟨h, by simp⟩
  | cons x rs ih =>
    intro off indexes k o hwf h
    have hx := hwf x (List.mem_cons_self _ _)
    simp only [replay] at h
    rcases ih _ _ k o (fun y hy => hwf y (List.mem_cons_of_mem _ hy)) h with
      ⟨h1, hrest⟩ | ⟨pre, r, post, hrs, ho, hk, hm, hpost⟩
    · by_cases hkey : x.Key = k
      · right
        by_cases hdel : x.Mark = DEL
        · rw [if_pos hdel] at h1
          simp [Index.delete, hkey] at h1
        · rw [if_neg hdel] at h1
          simp only [Index.set, hkey, if_true] at h1
          injection h1 with h1
          exact ⟨[], x, rs, rfl, by simp [logBytes, h1], hkey,
            hx.2.2.2.2.resolve_right hdel, hrest⟩
      · left
        have hne : k ≠ x.Key := fun e => hkey e.symm
        refine ⟨?_, ?_⟩
        · by_cases hdel : x.Mark = DEL
          · rw [if_pos hdel] at h1
            simpa [Index.delete, hne] using h1
          · rw [if_neg hdel] at h1
            simpa [Index.set, hne] using h1
        · intro y hy
          rcases List.mem_cons.mp hy with rfl | hy
          · exact hkey
          · exact hrest y hy
    · right
      refine ⟨x :: pre, r, post, by simp [hrs], ?_, hk, hm, hpost⟩
      rw [ho, logBytes_length_cons x pre hx, Nat.add_assoc]

theorem replay_eq_reindex (vs : List Entry) :
    ∀ (off : Nat) (indexes : Index), (∀ r ∈ vs, r.Mark = PUT) →
      replay vs off indexes = reindex vs off indexes := by
  induction vs with
  | nil => intro off indexes _; rfl
  | cons r vs ih =>
    intro off indexes h
    have hr : ¬ r.Mark = DEL := by
      rw [h r (List.mem_cons_self _ _)]; decide
    simp only [replay, reindex, if_neg hr]
    exact ih _ _ (fun x hx => h x (List.mem_cons_of_mem _ hx))

/-- For a key that some record has, the index before the rewrite does not matter. -/
theorem reindex_mem (vs : List Entry) (k : List Byte) :
    ∀ (off : Nat) (i j : Index), (∃ r ∈ vs, r.Key = k) →
      reindex vs off i k = reindex vs off j k := by
  induction vs with
  | nil => intro off i j h; obtain ⟨r, hr, _⟩ := h; simp at hr
  | cons x vs ih =>
    intro off i j h
    simp only [reindex]
    by_cases hrest : ∃ r ∈ vs, r.Key = k
    · exact ih _ _ _ hrest
    · have hno : ∀ r ∈ vs, r.Key ≠ k := fun r hr hk => hrest ⟨r, hr, hk⟩
      obtain ⟨r, hr, hk⟩ := h
      rcases List.mem_cons.mp hr with rfl | hr
      · rw [reindex_other vs k _ _ hno, reindex_other vs k _ _ hno]
        simp [Index.set, hk]
      · exact absurd hk (hno r hr)

/-- When the index points at every record, every record is live. -/
theorem liveRecords_all (indexes : Index) (vs : List Entry) :
    ∀ (off : Nat), (∀ x ∈ vs, x.wellFormed) →
      (∀ pre r post, vs = pre ++ r :: post →
        indexes r.Key = some (off + (logBytes pre).length)) →
      liveRecords indexes vs off = vs := by
  induction vs with
  | nil => intro off _ _; rfl
  | cons x vs ih =>
    intro off hwf h
    have hx := hwf x (List.mem_cons_self _ _)
    have h0 : indexes x.Key = some off := by
      simpa [logBytes] using h [] x vs rfl
    simp only [liveRecords, if_pos h0]
    rw [ih _ (fun y hy => hwf y (List.mem_cons_of_mem _ hy))]
    intro pre r post hvs
    have := h (x :: pre) r post (by simp [hvs])
    rw [this, logBytes_length_cons x pre hx, Nat.add_assoc]

/-- In a replayed index an indexed key is the key of a live record. -/
theorem live_of_indexed (rs : List Entry) (k : List Byte) (o : Nat)
    (hwf : ∀ r ∈ rs, r.wellFormed) (h : replay rs 0 Index.empty k = some o) :
    ∃ r ∈ liveRecords (replay rs 0 Index.empty) rs 0, r.Key = k := by
  rcases replay_some rs 0 Index.empty k o hwf h with h1 | ⟨a, r, b, hrs, hoff, hkey, _⟩
  · simp [Index.empty] at h1
  · subst hrs
    have hi : replay (a ++ r :: b) 0 Index.empty r.Key = some (logBytes a).length := by
      rw [hkey, h, hoff, Nat.zero_add]
    have hsplit := liveRecords_split (replay (a ++ r :: b) 0 Index.empty) a b r
      (fun x hx => hwf x (List.mem_append_left _ hx)) hi
    refine ⟨r, ?_, hkey⟩
    rw [hsplit]
    simp

/-- In a replayed index every live record is a `PUT` record. -/
theorem live_all_put (rs : List Entry) (hwf : ∀ r ∈ rs, r.wellFormed) :
    ∀ r ∈ liveRecords (replay rs 0 Index.empty) rs 0, r.Mark = PUT := by
  intro r hr
  obtain ⟨a, b, hrs, hi⟩ := mem_liveRecords_split _ rs 0 r hwf hr
  rw [Nat.zero_add] at hi
  subst hrs
  exact replay_live_mark a b r hwf hi

/-- The rewrite of `Merge` keeps the invariant: the new log is the sequence of the live
records and the new index is their replay. -/
theorem mergedDB_inv (db : MiniDB) (rs : List Entry) (hlog : IsLog db rs)
    (hidx : db.indexes = replay rs 0 Index.empty) (hmf : db.mergeFile = none) :
    IsLog (mergedDB db (liveRecords db.indexes rs 0)) (liveRecords db.indexes rs 0) ∧
    (mergedDB db (liveRecords db.indexes rs 0)).indexes =
      replay (liveRecords db.indexes rs 0) 0 Index.empty ∧
    (mergedDB db (liveRecords db.indexes rs 0)).mergeFile = none := by
  refine ⟨⟨liveRecords_wellFormed _ _ _ hlog.1, ?_, ?_⟩, ?_, rfl⟩
  · simp [mergedDB, newInternal, hmf]
  · simp [mergedDB, newInternal]
  · have hput : ∀ r ∈ liveRecords db.indexes rs 0, r.Mark = PUT := by
      rw [hidx]; exact live_all_put rs hlog.1
    rw [replay_eq_reindex _ _ _ hput]
    funext k
    simp only [mergedDB, hmf, Option.getD_none, List.length_nil]
    by_cases hk : ∃ r ∈ liveRecords db.indexes rs 0, r.Key = k
    · exact reindex_mem _ k 0 _ _ hk
    · have hno : ∀ r ∈ liveRecords db.indexes rs 0, r.Key ≠ k :=
        fun r hr hkey => hk ⟨r, hr, hkey⟩
      rw [reindex_other _ k _ _ hno, reindex_other _ k _ _ hno]
      cases ho : db.indexes k with
      | none => rfl
      | some o =>
        exfalso
        rw [hidx] at ho hk
        exact hk (live_of_indexed rs k o hlog.1 ho)

/-! ## The claims -/

/-- C1. Put/Get round trip: in every engine state (the reachable ones included), for every
non-empty key `k` and every value `v`, when `Put(k, v)` returns no error the `Get(k)` that
follows returns exactly the bytes of `v` and no error. -/
theorem put_get_round_trip (db : MiniDB) (k v : List Byte) (fault : Option Nat)
    (hk : k ≠ []) (hput : (db.Put k v fault).2 = none) :
    (db.Put k v fault).1.Get k = (v, none) := by
  obtain ⟨hwf, heq⟩ := MiniDB.Put_ok db k v fault hk hput
  obtain ⟨hsplit, hlen⟩ :=
    storeAt_split db.dbFile.File (NewEntry k v PUT).bytes db.dbFile.Offset
      (Entry.bytes_ne_nil _)
  rw [heq]
  have := MiniDB.Get_encoded
    { db with
        dbFile := { File := storeAt db.dbFile.File (NewEntry k v PUT).bytes db.dbFile.Offset,
                    Offset := db.dbFile.Offset + (NewEntry k v PUT).GetSize },
        indexes := db.indexes.set k db.dbFile.Offset }
    k _ _ (NewEntry k v PUT) hk (by simp [Index.set, hlen]) hsplit hwf
  simpa [NewEntry] using this

theorem put_get_round_trip_witness :
    ([97] : List Byte) ≠ [] ∧ (freshDB.Put [97] [49] none).2 = none ∧
    (freshDB.Put [97] [49] none).1.Get [97] = ([49], none) :=
  ⟨by decide, by decide, put_get_round_trip freshDB [97] [49] none (by decide) (by decide)⟩

/-- C2. Delete removes visibility: for every non-empty key `k` and value `v`, after
`Put(k, v)` and then `Del(k)` both returned no error, `k` is not in the index and `Get(k)`
returns an absent value. -/
theorem delete_removes_visibility (db : MiniDB) (k v : List Byte) (f1 f2 : Option Nat)
    (hk : k ≠ []) (hput : (db.Put k v f1).2 = none)
    (hdel : ((db.Put k v f1).1.Del k f2).2 = none) :
    ((db.Put k v f1).1.Del k f2).1.indexes k = none ∧
    (((db.Put k v f1).1.Del k f2).1.Get k).1 = [] := by
  obtain ⟨_, heq⟩ := MiniDB.Put_ok db k v f1 hk hput
  have hi : (db.Put k v f1).1.indexes k = some db.dbFile.Offset := by
    rw [heq]; simp [Index.set]
  obtain ⟨_, heq2⟩ := MiniDB.Del_ok (db.Put k v f1).1 k f2 _ hk hi hdel
  have hnone : ((db.Put k v f1).1.Del k f2).1.indexes k = none := by
    rw [heq2]; simp [Index.delete]
  exact ⟨hnone, by rw [MiniDB.Get_absent _ k hk hnone]⟩

theorem delete_removes_visibility_witness :
    ([97] : List Byte) ≠ [] ∧ (freshDB.Put [97] [49] none).2 = none ∧
    ((freshDB.Put [97] [49] none).1.Del [97] none).2 = none ∧
    ((freshDB.Put [97] [49] none).1.Del [97] none).1.indexes [97] = none ∧
    (((freshDB.Put [97] [49] none).1.Del [97] none).1.Get [97]).1 = [] :=
  ⟨by decide, by decide, by decide,
    delete_removes_visibility freshDB [97] [49] none none (by decide) (by decide) (by decide)⟩

/-- C5. `Put` whose append fails: on a fresh engine, `Put("a", "1")` with a device that
fails before any byte is written returns the error, writes nothing, and all the same maps
`"a"` to offset `0` in the index, which held no key before. -/
theorem put_failed_append_sets_index :
    freshDB.indexes [97] = none ∧
    (freshDB.Put [97] [49] (some 0)).2 = some Error.ErrWrite ∧
    (freshDB.Put [97] [49] (some 0)).1.dbFile.File = [] ∧
    (freshDB.Put [97] [49] (some 0)).1.indexes [97] = some 0 := by
  decide

/-- C6, as stated, fails: on a fresh engine `Get("a")` of the absent key `"a"` returns the
error `ErrKeyNotExist`, not a nil error. -/
theorem get_absent_key_reports_error :
    freshDB.indexes [97] = none ∧ freshDB.Get [97] = ([], some Error.ErrKeyNotExist) ∧
    (freshDB.Get [97]).2 ≠ none := by
  decide

/-- C6, amended. For every non-empty key `k` absent from the index, `Get(k)` returns an
absent value together with the error `ErrKeyNotExist`, whatever the log holds (the log is
not read); `Del(k)` returns no error. -/
theorem get_del_absent_key (db : MiniDB) (k : List Byte) (hk : k ≠ [])
    (hi : db.indexes k = none) :
    db.Get k = ([], some Error.ErrKeyNotExist) ∧
    (∀ df : DBFile, ({ db with dbFile := df } : MiniDB).Get k = db.Get k) ∧
    (∀ fault, (db.Del k fault).2 = none) := by
  refine ⟨MiniDB.Get_absent db k hk hi, ?_, ?_⟩
  · intro df
    rw [MiniDB.Get_absent db k hk hi, MiniDB.Get_absent _ k hk (by simpa using hi)]
  · intro fault
    rw [MiniDB.Del_absent db k fault hi]

theorem get_del_absent_key_witness :
    ([97] : List Byte) ≠ [] ∧ freshDB.indexes [97] = none ∧
    (freshDB.Get [97] = ([], some Error.ErrKeyNotExist) ∧
     (∀ df : DBFile, ({ freshDB with dbFile := df } : MiniDB).Get [97] = freshDB.Get [97]) ∧
     (∀ fault, (freshDB.Del [97] fault).2 = none)) :=
  ⟨by decide, by decide, get_del_absent_key freshDB [97] (by decide) (by decide)⟩

/-- C7. Empty-key operations are no-ops: in every engine state, for every value `v`,
`Put([], v)` and `Del([])` return no error and leave index, log content and write offset as
they are, and `Get([])` returns an absent value and no error whatever the log holds. -/
theorem empty_key_no_op (db : MiniDB) (v : List Byte) (fault : Option Nat) :
    db.Put [] v fault = (db, none) ∧ db.Del [] fault = (db, none) ∧
    db.Get [] = ([], none) :=
  ⟨rfl, rfl, rfl⟩

/-- C8. Idempotent delete: in every engine state, `Del(k)` of a key `k` absent from the
index returns no error and writes nothing (log content, write offset and index are as
before), and so does a second `Del(k)`: the log is exactly as after the first one. -/
theorem delete_absent_idempotent (db : MiniDB) (k : List Byte) (f1 f2 : Option Nat)
    (hi : db.indexes k = none) :
    db.Del k f1 = (db, none) ∧ (db.Del k f1).1.Del k f2 = ((db.Del k f1).1, none) ∧
    ((db.Del k f1).1.Del k f2).1.dbFile = db.dbFile := by
  have h1 := MiniDB.Del_absent db k f1 hi
  have h2 := MiniDB.Del_absent db k f2 hi
  refine ⟨h1, ?_, ?_⟩
  · rw [h1]; exact h2
  · rw [h1]; simp only [h2]

theorem delete_absent_idempotent_witness :
    freshDB.indexes [97] = none ∧
    (freshDB.Del [97] none = (freshDB, none) ∧
     (freshDB.Del [97] none).1.Del [97] none = ((freshDB.Del [97] none).1, none) ∧
     ((freshDB.Del [97] none).1.Del [97] none).1.dbFile = freshDB.dbFile) :=
  ⟨by decide, delete_absent_idempotent freshDB [97] none none (by decide)⟩

theorem reachable_deletedDB : Reachable deletedDB :=
  Reachable.del _ _ _ (Reachable.put _ _ _ _ (Reachable.init freshDB rfl) (by decide))
    (by decide)

theorem reachable_scenarioDB : Reachable scenarioDB :=
  Reachable.del _ _ _
    (Reachable.put _ _ _ _
      (Reachable.put _ _ _ _
        (Reachable.put _ _ _ _ (Reachable.init freshDB rfl) (by decide)) (by decide))
      (by decide))
    (by decide)

/-- Re-opening the directory of a reachable engine gives the same engine back. -/
theorem Reachable.reopen {db : MiniDB} (h : Reachable db) : Open db.Close.1 = some db := by
  obtain ⟨rs, hlog, hidx, _⟩ := h.log
  have hload := loadLoop_log rs [] (db.dbFile.File.length + 1) Index.empty
    (newInternal db.dbFile.File) hlog.1 (by simp [newInternal, hlog.2.1])
    (by simp [hlog.2.1])
  simp only [List.length_nil] at hload
  simp only [Open, MiniDB.Close, Option.getD_some, MiniDB.loadIndexesFromFile]
  have hfile : (newInternal db.dbFile.File).File = db.dbFile.File := rfl
  rw [hfile, hload, ← hidx]
  have hdf : newInternal db.dbFile.File = db.dbFile := by
    cases hd : db.dbFile with
    | mk f o =>
      have := hlog.2.2
      rw [hd] at this
      simp only at this
      simp [newInternal, this]
  simp [hdf]

/-- C3. Replay equivalence: for every engine state reached from `Open` on an empty
directory by `Put` and `Del` calls that returned no error, `Close` returns no error and
`Open` on the directory it leaves returns an engine whose index holds the same keys (with
the same offsets) and whose `Get` returns for every key what it returned before closing. -/
theorem replay_equivalence (db : MiniDB) (h : Reachable db) :
    db.Close.2 = none ∧
    ∃ db', Open db.Close.1 = some db' ∧ (∀ k, db'.indexes k = db.indexes k) ∧
      (∀ k, db'.Get k = db.Get k) :=
  ⟨rfl, db, h.reopen, fun _ => rfl, fun _ => rfl⟩

theorem replay_equivalence_witness :
    Reachable scenarioDB ∧
    (scenarioDB.Close.2 = none ∧
     ∃ db', Open scenarioDB.Close.1 = some db' ∧
      (∀ k, db'.indexes k = scenarioDB.indexes k) ∧ (∀ k, db'.Get k = scenarioDB.Get k)) :=
  ⟨reachable_scenarioDB, replay_equivalence scenarioDB reachable_scenarioDB⟩

/-- What a `Merge` that returns no error leaves: the engine as it was when no record is
live, the rewritten engine otherwise. -/
theorem MiniDB.Merge_cases {db : MiniDB} (rs : List Entry) (hlog : IsLog db rs)
    (db' : MiniDB) (faults : Nat → Option Nat) (hm : db.Merge faults = some (db', none)) :
    (liveRecords db.indexes rs 0 = [] ∧ db' = db) ∨
    (liveRecords db.indexes rs 0 ≠ [] ∧ db' = mergedDB db (liveRecords db.indexes rs 0)) := by
  have hm' := MiniDB.Merge_ok db db' faults hm
  rw [MiniDB.Merge_noFault db rs hlog] at hm'
  by_cases hl : liveRecords db.indexes rs 0 = []
  · rw [if_pos hl] at hm'
    injection hm' with hm'
    injection hm' with hm' _
    exact Or.inl ⟨hl, hm'.symm⟩
  · rw [if_neg hl] at hm'
    injection hm' with hm'
    injection hm' with hm' _
    exact Or.inr ⟨hl, hm'.symm⟩

/-- The guard of `Merge`: after `Put("a", "1")` and `Del("a")` the log is not empty, `Merge`
returns no error and leaves the engine as it is, and the log still holds records that are
not live. -/
theorem merge_keeps_log_without_live_key :
    Reachable deletedDB ∧ deletedDB.dbFile.File ≠ [] ∧
    deletedDB.Merge noFault = some (deletedDB, none) ∧
    deletedDB.dbFile.File = logBytes [NewEntry [97] [49] PUT, NewEntry [97] [] DEL] ∧
    ¬ OnlyLive deletedDB := by
  refine ⟨reachable_deletedDB, by decide, rfl, by decide, ?_⟩
  rintro ⟨rs, hlog, hlive⟩
  cases rs with
  | nil =>
    have := hlog.2.1
    exact absurd this (by decide)
  | cons r rs =>
    have := (hlive [] r rs rfl).2
    have hnone : ∀ k, deletedDB.indexes k = none := by
      intro k
      simp [deletedDB, MiniDB.Put, MiniDB.Del, MiniDB.exist, Index.set, Index.delete,
        freshDB, Index.empty, DBFile.Write, Entry.Encode, NewEntry, WriteAt]
    rw [hnone] at this
    exact absurd this (by simp)

theorem Inv.put {db : MiniDB} (h : Inv db) (key value : List Byte) (fault : Option Nat)
    (hput : (db.Put key value fault).2 = none) : Inv (db.Put key value fault).1 := by
  obtain ⟨rs, hlog, hidx, hmf⟩ := h
  by_cases hk : key = []
  · subst hk
    exact ⟨rs, hlog, hidx, hmf⟩
  · obtain ⟨hwf, heq⟩ := MiniDB.Put_ok db key value fault hk hput
    rw [heq]
    refine ⟨rs ++ [NewEntry key value PUT], IsLog.append db rs _ _ hlog hwf, ?_, hmf⟩
    have hne : ¬ (NewEntry key value PUT).Mark = DEL := by simp [NewEntry, PUT, DEL]
    simp only [replay_append rs _ 0 Index.empty hlog.1, replay, if_neg hne, ← hidx,
      Nat.zero_add, ← hlog.2.1, ← hlog.2.2]
    rfl

theorem Inv.del {db : MiniDB} (h : Inv db) (key : List Byte) (fault : Option Nat)
    (hdel : (db.Del key fault).2 = none) : Inv (db.Del key fault).1 := by
  obtain ⟨rs, hlog, hidx, hmf⟩ := h
  by_cases hk : key = []
  · subst hk
    exact ⟨rs, hlog, hidx, hmf⟩
  · cases hi : db.indexes key with
    | none =>
      rw [MiniDB.Del_absent db key fault hi]
      exact ⟨rs, hlog, hidx, hmf⟩
    | some off =>
      obtain ⟨hwf, heq⟩ := MiniDB.Del_ok db key fault off hk hi hdel
      rw [heq]
      refine ⟨rs ++ [NewEntry key [] DEL], IsLog.append db rs _ _ hlog hwf, ?_, hmf⟩
      have hm : (NewEntry key [] DEL).Mark = DEL := rfl
      simp only [replay_append rs _ 0 Index.empty hlog.1, replay, if_pos hm, ← hidx]
      rfl

theorem Inv.merge {db : MiniDB} (h : Inv db) (db' : MiniDB) (faults : Nat → Option Nat)
    (hm : db.Merge faults = some (db', none)) : Inv db' := by
  obtain ⟨rs, hlog, hidx, hmf⟩ := h
  rcases MiniDB.Merge_cases rs hlog db' faults hm with ⟨_, rfl⟩ | ⟨_, rfl⟩
  · exact ⟨rs, hlog, hidx, hmf⟩
  · exact ⟨_, mergedDB_inv db rs hlog hidx hmf⟩

theorem Reachable.inv_of_putdel {db : MiniDB} (h : Reachable db) : Inv db := h.log

/-- Every state reached by `Put`, `Del` and `Merge` calls that returned no error satisfies
the invariant. -/
theorem ReachableM.inv {db : MiniDB} (h : ReachableM db) : Inv db := by
  induction h with
  | init db hopen =>
    rw [Open_emptyDir] at hopen
    injection hopen with hopen
    subst hopen
    exact ⟨[], ⟨by simp, rfl, rfl⟩, rfl, rfl⟩
  | put db key value fault _ hput ih => exact ih.put key value fault hput
  | del db key fault _ hdel ih => exact ih.del key fault hdel
  | merge db db' faults _ hm ih => exact ih.merge db' faults hm

theorem Reachable.toM {db : MiniDB} (h : Reachable db) : ReachableM db := by
  induction h with
  | init db hopen => exact ReachableM.init db hopen
  | put db key value fault _ hput ih => exact ReachableM.put db key value fault ih hput
  | del db key fault _ hdel ih => exact ReachableM.del db key fault ih hdel

/-- Under the invariant the index points at the last record of each key it holds, a `PUT`
record that `Read` returns. -/
theorem Inv.indexed {db : MiniDB} (h : Inv db) (k : List Byte) (o : Nat)
    (hk : db.indexes k = some o) :
    ∃ pre r post, IsLog db (pre ++ r :: post) ∧ o = (logBytes pre).length ∧
      db.dbFile.Read o = .ok r ∧ r.Key = k ∧ r.Mark = PUT ∧ r.wellFormed ∧
      ∀ x ∈ post, x.Key ≠ k := by
  obtain ⟨rs, hlog, hidx, _⟩ := h
  have hrep : replay rs 0 Index.empty k = some o := by rw [← hidx]; exact hk
  rcases replay_some_last rs 0 Index.empty k o hlog.1 hrep with
    ⟨h1, _⟩ | ⟨pre, r, post, hrs, ho, hkey, hm, hpost⟩
  · simp [Index.empty] at h1
  · subst hrs
    have hr : r.wellFormed := hlog.1 r (by simp)
    rw [Nat.zero_add] at ho
    refine ⟨pre, r, post, hlog, ho, ?_, hkey, hm, hr, hpost⟩
    rw [ho]
    exact DBFile.Read_encoded db.dbFile (logBytes pre) (logBytes post) r
      (by rw [hlog.2.1]; simp [logBytes_append, logBytes]) hr

theorem ReadAt_short (file : List Byte) (n off : Nat) (h : file.length < off + n) :
    ReadAt file n off = .error Error.EOF := by
  unfold ReadAt
  rw [if_neg (by omega)]

theorem ReadAt_error (file : List Byte) (n off : Nat) (err : Error)
    (h : ReadAt file n off = .error err) : err = Error.EOF := by
  unfold ReadAt at h
  split at h
  · exact absurd h (by simp)
  · injection h with h; exact h.symm

theorem ReadAt_ok_bound (file : List Byte) (n off : Nat) (b : List Byte)
    (h : ReadAt file n off = .ok b) : off + n ≤ file.length := by
  unfold ReadAt at h
  split at h
  · assumption
  · exact absurd h (by simp)

/-- `Read` at the start of a truncated record reports `io.EOF`. -/
theorem DBFile.Read_truncated (df : DBFile) (pre : List Byte) (e : Entry) (n : Nat)
    (hf : df.File = pre ++ e.bytes.take n) (hn : n < e.bytes.length) (h : e.wellFormed) :
    ∃ p, df.Read pre.length = .error (p, Error.EOF) := by
  have hsize := Entry.bytes_length e h
  have hlen : df.File.length = pre.length + n := by
    rw [hf, List.length_append, List.length_take]; omega
  simp only [Entry.GetSize, entryHeaderSize] at hsize
  by_cases hhead : n < 12
  · refine ⟨none, ?_⟩
    unfold DBFile.Read
    rw [ReadAt_short df.File entryHeaderSize pre.length
      (by simp only [entryHeaderSize]; omega)]
  · have htake : e.bytes.take n = encodeHeader e ++ (e.Key ++ e.Value).take (n - 12) := by
      simp only [Entry.bytes, List.append_assoc]
      rw [List.take_append_eq_append_take, encodeHeader_length,
        List.take_of_length_le (by rw [encodeHeader_length]; omega)]
    have hread : ReadAt df.File entryHeaderSize pre.length = .ok (encodeHeader e) :=
      ReadAt_of_eq df.File pre (encodeHeader e) ((e.Key ++ e.Value).take (n - 12)) _ _
        (by rw [hf, htake]; simp) rfl rfl
    unfold DBFile.Read
    simp only [hread, Decode_encodeHeader e h]
    by_cases hk : e.KeySize > 0
    · simp only [hk, if_true]
      cases hkey : ReadAt df.File e.KeySize (pre.length + entryHeaderSize) with
      | error err =>
        rw [ReadAt_error _ _ _ _ hkey]
        exact ⟨_, rfl⟩
      | ok key =>
        have hb := ReadAt_ok_bound _ _ _ _ hkey
        simp only [entryHeaderSize] at hb
        have hv : e.ValueSize > 0 := by omega
        simp only [Except.map, hv, if_true]
        rw [ReadAt_short df.File e.ValueSize _ (by simp only [entryHeaderSize]; omega)]
        exact ⟨_, rfl⟩
    · have hv : e.ValueSize > 0 := by omega
      simp only [hk, if_false, hv, if_true]
      rw [ReadAt_short df.File e.ValueSize _ (by simp only [entryHeaderSize]; omega)]
      exact ⟨_, rfl⟩

/-- The loop of `loadIndexesFromFile` over well-formed records followed by bytes at which
`Read` fails: the records are replayed, the rest is left out. -/
theorem loadLoop_log_tail (rs : List Entry) (tail : List Byte) :
    ∀ (pre : List Byte) (fuel : Nat) (indexes : Index) (df : DBFile),
      (∀ r ∈ rs, r.wellFormed) → df.File = pre ++ logBytes rs ++ tail →
      (logBytes rs).length < fuel →
      (∃ p, df.Read (pre ++ logBytes rs).length = .error p) →
      loadLoop fuel df indexes pre.length = some (replay rs pre.length indexes) := by
  induction rs with
  | nil =>
    intro pre fuel indexes df _ hf hfuel hend
    obtain ⟨fuel, rfl⟩ : ∃ n, fuel = n + 1 := ⟨fuel - 1, by omega⟩
    obtain ⟨⟨p, err⟩, hread⟩ := hend
    simp only [logBytes, List.append_nil] at hread
    simp only [loadLoop, hread, replay]
    split <;> rfl
  | cons r rs ih =>
    intro pre fuel indexes df hwf hf hfuel hend
    have hr : r.wellFormed := hwf r (List.mem_cons_self _ _)
    have hlen := Entry.bytes_length r hr
    have hpos := Entry.GetSize_pos r
    simp only [logBytes, List.length_append] at hfuel
    obtain ⟨fuel, rfl⟩ : ∃ n, fuel = n + 1 := ⟨fuel - 1, by omega⟩
    have hread : df.Read pre.length = .ok r :=
      DBFile.Read_encoded df pre (logBytes rs ++ tail) r (by simp [hf, logBytes]) hr
    have hoff : pre.length + r.GetSize = (pre ++ r.bytes).length := by
      simp [hlen]
    have hrec : ∀ indexes, loadLoop fuel df indexes (pre.length + r.GetSize) =
        some (replay rs (pre.length + r.GetSize) indexes) := by
      intro indexes
      rw [hoff]
      exact ih (pre ++ r.bytes) fuel indexes df
        (fun x hx => hwf x (List.mem_cons_of_mem _ hx)) (by simp [hf, logBytes]) (by omega)
        (by simpa [logBytes] using hend)
    simp only [loadLoop, hread, replay, hrec]
    by_cases hdel : r.Mark = DEL
    · simp only [hdel, if_true, Index.delete_set]
    · simp only [hdel, if_false]

/-- On well-formed records the left fold of the spec's rule is the replay. -/
theorem foldl_replayStep (rs : List Entry) :
    ∀ (acc : Index × Nat), (∀ r ∈ rs, r.wellFormed) →
      (rs.foldl replayStep acc).1 = replay rs acc.2 acc.1 := by
  induction rs with
  | nil => intro acc _; rfl
  | cons r rs ih =>
    intro acc hwf
    have hr := hwf r (List.mem_cons_self _ _)
    simp only [List.foldl_cons, replay]
    rw [ih _ (fun x hx => hwf x (List.mem_cons_of_mem _ hx))]
    simp only [replayStep]
    have hpd : ¬ PUT = DEL := by decide
    have hdp : ¬ DEL = PUT := by decide
    rcases hr.2.2.2.2 with hm | hm
    · simp only [hm, hpd, if_true, if_false]
    · simp only [hm, hdp, if_true, if_false]

theorem specReplay_eq (rs : List Entry) (hwf : ∀ r ∈ rs, r.wellFormed) :
    specReplay rs = replay rs 0 Index.empty :=
  foldl_replayStep rs (Index.empty, 0) hwf

/-- What `Open` builds on a log of well-formed records followed by bytes at which `Read`
fails. -/
theorem Open_log_tail (rs : List Entry) (tail : List Byte) (m : Option (List Byte))
    (hwf : ∀ r ∈ rs, r.wellFormed)
    (hend : ∃ p, (newInternal (logBytes rs ++ tail)).Read (logBytes rs).length = .error p) :
    Open { data := some (logBytes rs ++ tail), merge := m } =
      some { indexes := replay rs 0 Index.empty, dbFile := newInternal (logBytes rs ++ tail),
             mergeFile := m } := by
  have hload := loadLoop_log_tail rs tail [] ((logBytes rs ++ tail).length + 1) Index.empty
    (newInternal (logBytes rs ++ tail)) hwf (by simp [newInternal])
    (by simp only [List.length_append]; omega) (by simpa using hend)
  simp only [List.length_nil] at hload
  simp only [Open, Option.getD_some, MiniDB.loadIndexesFromFile]
  have hfile : (newInternal (logBytes rs ++ tail)).File = logBytes rs ++ tail := rfl
  rw [hfile, hload]
  rfl

theorem DBFile.eq_of_fields (a b : DBFile) (h1 : a.File = b.File) (h2 : a.Offset = b.Offset) :
    a = b := by
  cases a; cases b; simp_all

theorem MiniDB.eq_of_parts (a b : MiniDB) (h1 : a.indexes = b.indexes)
    (h2 : a.dbFile = b.dbFile) (h3 : a.mergeFile = b.mergeFile) : a = b := by
  cases a; cases b; simp_all

/-- Under the invariant, when every record of the log is live the rewrite of `Merge` gives
the same engine back. -/
theorem mergedDB_fixed (db : MiniDB) (rs : List Entry) (hlog : IsLog db rs)
    (hidx : db.indexes = replay rs 0 Index.empty) (hmf : db.mergeFile = none)
    (hall : liveRecords db.indexes rs 0 = rs) : mergedDB db rs = db := by
  obtain ⟨hl, hi, hm⟩ := mergedDB_inv db rs hlog hidx hmf
  rw [hall] at hl hi hm
  apply MiniDB.eq_of_parts
  · rw [hi, hidx]
  · apply DBFile.eq_of_fields
    · rw [hl.2.1, hlog.2.1]
    · rw [hl.2.2, hlog.2.2, hl.2.1, hlog.2.1]
  · rw [hm, hmf]

/-- Under the invariant a second `Merge` that returns no error changes nothing. -/
theorem Inv.merge_twice {db : MiniDB} (h : Inv db) (db1 db2 : MiniDB)
    (f1 f2 : Nat → Option Nat) (h1 : db.Merge f1 = some (db1, none))
    (h2 : db1.Merge f2 = some (db2, none)) : db2 = db1 := by
  obtain ⟨rs, hlog, hidx, hmf⟩ := h
  rcases MiniDB.Merge_cases rs hlog db1 f1 h1 with ⟨hnil, rfl⟩ | ⟨_, rfl⟩
  · rcases MiniDB.Merge_cases rs hlog db2 f2 h2 with ⟨_, hdb⟩ | ⟨hne, _⟩
    · exact hdb
    · exact absurd hnil hne
  · obtain ⟨hl, hi, hm⟩ := mergedDB_inv db rs hlog hidx hmf
    have hall : liveRecords (mergedDB db (liveRecords db.indexes rs 0)).indexes
        (liveRecords db.indexes rs 0) 0 = liveRecords db.indexes rs 0 := by
      apply liveRecords_all _ _ 0 hl.1
      intro pre r post hsplit
      rw [mergedDB_index db rs pre post r hlog hsplit, hmf]
      simp
    rcases MiniDB.Merge_cases _ hl db2 f2 h2 with ⟨_, hdb⟩ | ⟨_, hdb⟩
    · exact hdb
    · rw [hdb, hall]
      exact mergedDB_fixed _ _ hl hi hm hall

theorem mergeScan_more_fuel (df : DBFile) (indexes : Index) :
    ∀ (fuel extra off : Nat) (acc : List Entry) (res : Except Error (List Entry)),
      mergeScan fuel df indexes off acc = some res →
      mergeScan (fuel + extra) df indexes off acc = some res := by
  intro fuel
  induction fuel with
  | zero => intro extra off acc res h; simp [mergeScan] at h
  | succ fuel ih =>
    intro extra off acc res h
    rw [Nat.add_right_comm]
    simp only [mergeScan] at h ⊢
    cases hr : df.Read off with
    | error p => rw [hr] at h; exact h
    | ok e =>
      rw [hr] at h
      exact ih _ _ _ _ h

theorem loadLoop_more_fuel (df : DBFile) :
    ∀ (fuel extra off : Nat) (indexes res : Index),
      loadLoop fuel df indexes off = some res →
      loadLoop (fuel + extra) df indexes off = some res := by
  intro fuel
  induction fuel with
  | zero => intro extra off indexes res h; simp [loadLoop] at h
  | succ fuel ih =>
    intro extra off indexes res h
    rw [Nat.add_right_comm]
    simp only [loadLoop] at h ⊢
    cases hr : df.Read off with
    | error p => rw [hr] at h; exact h
    | ok e =>
      rw [hr] at h
      exact ih _ _ _ _ h

theorem reachableM_mergedScenarioDB : ReachableM mergedScenarioDB := by
  apply ReachableM.merge scenarioDB mergedScenarioDB noFault reachable_scenarioDB.toM
  have hlog : IsLog scenarioDB [NewEntry [98] [120] PUT, NewEntry [97] [49] PUT,
      NewEntry [97] [50] PUT, NewEntry [98] [] DEL] :=
    ⟨by decide, by decide, by decide⟩
  have hl : liveRecords scenarioDB.indexes [NewEntry [98] [120] PUT, NewEntry [97] [49] PUT,
      NewEntry [97] [50] PUT, NewEntry [98] [] DEL] 0 = [NewEntry [97] [50] PUT] := by
    decide
  rw [MiniDB.Merge_noFault scenarioDB _ hlog, hl]
  rfl

/-- C12. Index validity invariant: in every state reached from `Open` on an empty directory
by `Put`, `Del` and `Merge` calls that returned no error, every key `k` that the index maps
to an offset `o` has in the current log, at `o`, a well-formed `PUT` record with key `k`
(`Read` at `o` returns it), and no later record of the log has the key `k`. -/
theorem index_validity (db : MiniDB) (h : ReachableM db) (k : List Byte) (o : Nat)
    (hk : db.indexes k = some o) :
    ∃ pre r post, IsLog db (pre ++ r :: post) ∧ o = (logBytes pre).length ∧
      db.dbFile.Read o = .ok r ∧ r.Key = k ∧ r.Mark = PUT ∧ r.wellFormed ∧
      ∀ x ∈ post, x.Key ≠ k :=
  h.inv.indexed k o hk

theorem index_validity_witness :
    ReachableM mergedScenarioDB ∧ mergedScenarioDB.indexes [97] = some 0 ∧
    ∃ pre r post, IsLog mergedScenarioDB (pre ++ r :: post) ∧ 0 = (logBytes pre).length ∧
      mergedScenarioDB.dbFile.Read 0 = .ok r ∧ r.Key = [97] ∧ r.Mark = PUT ∧ r.wellFormed ∧
      ∀ x ∈ post, x.Key ≠ [97] :=
  ⟨reachableM_mergedScenarioDB, by decide,
    index_validity mergedScenarioDB reachableM_mergedScenarioDB [97] 0 (by decide)⟩

/-- C13. Append-offset contract: for every `DBFile` whose `Offset` is the file length and
every entry `e` whose sizes are the lengths of its key and value, within range, a `Write(e)`
that returns no error stores the encoding of `e` at the old `Offset` (the end of the file),
grows the file by exactly `e.GetSize()` bytes and leaves `Offset` at the old `Offset` plus
`e.GetSize()`, the new file length; no `Write` makes `Offset` smaller; and `Read` at the old
`Offset` then returns `e`. -/
theorem append_offset_contract (df : DBFile) (e : Entry) (fault : Option Nat)
    (hoff : df.Offset = df.File.length) (he : e.wellFormed)
    (hw : (df.Write e fault).2 = none) :
    e.Encode = .ok e.bytes ∧
    (df.Write e fault).1.File = df.File ++ e.bytes ∧
    (df.Write e fault).1.File.length = df.File.length + e.GetSize ∧
    (df.Write e fault).1.Offset = df.Offset + e.GetSize ∧
    (df.Write e fault).1.Offset = (df.Write e fault).1.File.length ∧
    (∀ e' fault', df.Offset ≤ (df.Write e' fault').1.Offset) ∧
    (df.Write e fault).1.Read df.Offset = .ok e := by
  obtain ⟨hf, _, _⟩ := DBFile.Write_ok df e fault hw
  subst hf
  have hlen := Entry.bytes_length e he
  rw [DBFile.Write_wellFormed df e he, hoff, storeAt_end]
  refine ⟨Entry.Encode_wellFormed e he, rfl, ?_, rfl, ?_, ?_, ?_⟩
  · simp [hlen]
  · simp [hlen]
  · intro e' fault'
    rw [← hoff]
    unfold DBFile.Write
    split
    · exact Nat.le_refl _
    · exact Nat.le_add_right _ _
  · exact DBFile.Read_encoded _ df.File [] e (by simp) he

theorem append_offset_contract_witness :
    (newInternal [7, 7]).Offset = (newInternal [7, 7]).File.length ∧
    (NewEntry [97] [49] PUT).wellFormed ∧
    ((newInternal [7, 7]).Write (NewEntry [97] [49] PUT) none).2 = none ∧
    ((newInternal [7, 7]).Write (NewEntry [97] [49] PUT) none).1.File =
      [7, 7] ++ (NewEntry [97] [49] PUT).bytes ∧
    ((newInternal [7, 7]).Write (NewEntry [97] [49] PUT) none).1.Offset = 2 + 14 ∧
    ((newInternal [7, 7]).Write (NewEntry [97] [49] PUT) none).1.Read 2 =
      .ok (NewEntry [97] [49] PUT) := by
  obtain ⟨_, h2, _, h4, _, _, h7⟩ :=
    append_offset_contract (newInternal [7, 7]) (NewEntry [97] [49] PUT) none rfl
      (by decide) (by decide)
  exact ⟨rfl, by decide, by decide, h2, h4, h7⟩

/-- C14. Replay rule of `Open`: on every log that is the concatenation of well-formed records
`rs`, `Open` returns an engine whose index is the left fold over `rs`, in order, of the rule
"`PUT`: `index[key]` := start offset of the record; `DELETE`: remove `key`", the start offset
of a record being the sum of the total sizes of the records before it. Hence the index maps
a key `k` to `o` exactly when the last record of `k` is a `PUT` record that starts at `o`. -/
theorem open_replay_rule (rs : List Entry) (m : Option (List Byte))
    (hwf : ∀ r ∈ rs, r.wellFormed) :
    ∃ db, Open { data := some (logBytes rs), merge := m } = some db ∧
      db.indexes = specReplay rs ∧
      ∀ k o, db.indexes k = some o ↔
        ∃ pre r post, rs = pre ++ r :: post ∧ r.Key = k ∧ r.Mark = PUT ∧
          o = (logBytes pre).length ∧ ∀ x ∈ post, x.Key ≠ k := by
  have hopen := Open_log_tail rs [] m hwf
    ⟨_, DBFile.Read_end _ _ (by simp [newInternal])⟩
  rw [List.append_nil] at hopen
  refine ⟨_, hopen, (specReplay_eq rs hwf).symm, ?_⟩
  intro k o
  constructor
  · intro h
    rcases replay_some_last rs 0 Index.empty k o hwf h with
      ⟨h1, _⟩ | ⟨pre, r, post, hrs, ho, hkey, hm, hpost⟩
    · simp [Index.empty] at h1
    · exact ⟨pre, r, post, hrs, hkey, hm, by omega, hpost⟩
  · rintro ⟨pre, r, post, hrs, hkey, hm, ho, hpost⟩
    subst hrs
    have hne : ¬ r.Mark = DEL := by rw [hm]; decide
    show replay (pre ++ r :: post) 0 Index.empty k = some o
    rw [replay_append pre (r :: post) 0 Index.empty
      (fun x hx => hwf x (List.mem_append_left _ hx))]
    simp only [replay, if_neg hne]
    rw [replay_other post k _ _ hpost]
    simp [Index.set, hkey, ho]

theorem open_replay_rule_witness :
    (∀ r ∈ [NewEntry [97] [49] PUT, NewEntry [98] [50] PUT, NewEntry [97] [] DEL],
      r.wellFormed) ∧
    ∃ db, Open { data := some (logBytes [NewEntry [97] [49] PUT, NewEntry [98] [50] PUT,
        NewEntry [97] [] DEL]), merge := none } = some db ∧
      db.indexes [97] = none ∧ db.indexes [98] = some 14 := by
  have hwf : ∀ r ∈ [NewEntry [97] [49] PUT, NewEntry [98] [50] PUT, NewEntry [97] [] DEL],
      r.wellFormed := by decide
  obtain ⟨db, hopen, hidx, _⟩ := open_replay_rule _ none hwf
  refine ⟨hwf, db, hopen, ?_, ?_⟩
  · rw [hidx]; decide
  · rw [hidx]; decide

/-- C15. Torn-tail tolerance on re-open: on every log made of well-formed records `rs`
followed by a strict prefix of the encoding of one more well-formed record, `Open` returns
an engine (it has no failure to report), and the index it builds is the replay of `rs`
alone, the index `Open` builds on the log without the truncated record: the truncated
record ends the scan and is not indexed. -/
theorem torn_tail_tolerance (rs : List Entry) (e : Entry) (n : Nat) (m : Option (List Byte))
    (hwf : ∀ r ∈ rs, r.wellFormed) (he : e.wellFormed) (hn : n < e.bytes.length) :
    ∃ db db0, Open { data := some (logBytes rs ++ e.bytes.take n), merge := m } = some db ∧
      Open { data := some (logBytes rs), merge := m } = some db0 ∧
      db.indexes = db0.indexes ∧ db.indexes = specReplay rs ∧
      db.dbFile.File = logBytes rs ++ e.bytes.take n := by
  have hread := DBFile.Read_truncated (newInternal (logBytes rs ++ e.bytes.take n))
    (logBytes rs) e n rfl hn he
  have hopen := Open_log_tail rs (e.bytes.take n) m hwf
    (by obtain ⟨p, hp⟩ := hread; exact ⟨_, hp⟩)
  have hopen0 := Open_log_tail rs [] m hwf
    ⟨_, DBFile.Read_end _ _ (by simp [newInternal])⟩
  rw [List.append_nil] at hopen0
  exact ⟨_, _, hopen, hopen0, rfl, (specReplay_eq rs hwf).symm, rfl⟩

theorem torn_tail_tolerance_witness :
    (∀ r ∈ [NewEntry [97] [49] PUT], r.wellFormed) ∧ (NewEntry [98] [50] PUT).wellFormed ∧
    13 < (NewEntry [98] [50] PUT).bytes.length ∧
    ∃ db, Open { data := some (logBytes [NewEntry [97] [49] PUT] ++
        (NewEntry [98] [50] PUT).bytes.take 13), merge := none } = some db ∧
      db.indexes [97] = some 0 ∧ db.indexes [98] = none := by
  have hwf : ∀ r ∈ [NewEntry [97] [49] PUT], r.wellFormed := by decide
  obtain ⟨db, _, hopen, _, _, hidx, _⟩ :=
    torn_tail_tolerance [NewEntry [97] [49] PUT] (NewEntry [98] [50] PUT) 13 none hwf
      (by decide) (by decide)
  refine ⟨hwf, by decide, by decide, db, hopen, ?_, ?_⟩
  · rw [hidx]; decide
  · rw [hidx]; decide

/-- C16. `Get` at end-of-log: after a `Put("a", "1")` whose write failed on a fresh engine
the index maps `"a"` to offset `0`, the end of the empty log; `Read` there reports
`io.EOF`, and `Get("a")` returns the absent value together with the error `io.EOF`. -/
theorem get_at_end_of_log_reports_eof :
    failedPutDB.indexes [97] = some 0 ∧ failedPutDB.dbFile.File.length ≤ 0 ∧
    failedPutDB.dbFile.Read 0 = .error (none, Error.EOF) ∧
    failedPutDB.Get [97] = ([], some Error.EOF) ∧ (failedPutDB.Get [97]).2 ≠ none :=
  ⟨by decide, by decide, rfl, by decide, by decide⟩

/-- C18. `Del` and the index on failure: for every non-empty key `k` that the index holds,
when the append of the `DELETE` record fails `Del` returns that error and the index is as
before (`k` keeps its offset); `k` is out of the index after `Del` only when the append
returned no error. -/
theorem del_failure_keeps_index (db : MiniDB) (k : List Byte) (fault : Option Nat)
    (off : Nat) (hk : k ≠ []) (hi : db.indexes k = some off) :
    (∀ err, (db.dbFile.Write (NewEntry k [] DEL) fault).2 = some err →
      (db.Del k fault).2 = some err ∧ (db.Del k fault).1.indexes = db.indexes ∧
      (db.Del k fault).1.indexes k = some off) ∧
    ((db.Del k fault).1.indexes k = none →
      (db.dbFile.Write (NewEntry k [] DEL) fault).2 = none ∧ (db.Del k fault).2 = none) := by
  have hlen : ¬ k.length = 0 := fun h0 => hk (List.length_eq_zero.mp h0)
  have hex : ¬ (db.exist k).2 = some Error.ErrKeyNotExist := by
    simp [MiniDB.exist, hi]
  have hdel : db.Del k fault =
      if (db.dbFile.Write (NewEntry k [] DEL) fault).2 ≠ none then
        ({ db with dbFile := (db.dbFile.Write (NewEntry k [] DEL) fault).1 },
          (db.dbFile.Write (NewEntry k [] DEL) fault).2)
      else ({ db with dbFile := (db.dbFile.Write (NewEntry k [] DEL) fault).1,
                      indexes := db.indexes.delete k }, none) := by
    unfold MiniDB.Del
    rw [if_neg hlen, if_neg hex]
  constructor
  · intro err herr
    have hne : (db.dbFile.Write (NewEntry k [] DEL) fault).2 ≠ none := by
      rw [herr]; simp
    rw [hdel, if_pos hne]
    exact ⟨herr, rfl, hi⟩
  · intro hnone
    by_cases hne : (db.dbFile.Write (NewEntry k [] DEL) fault).2 ≠ none
    · rw [hdel, if_pos hne] at hnone
      simp only at hnone
      rw [hi] at hnone
      exact absurd hnone (by simp)
    · rw [hdel, if_neg hne]
      exact ⟨not_not.mp hne, rfl⟩

theorem del_failure_keeps_index_witness :
    ([97] : List Byte) ≠ [] ∧ (freshDB.Put [97] [49] none).1.indexes [97] = some 0 ∧
    ((freshDB.Put [97] [49] none).1.Del [97] (some 0)).2 = some Error.ErrWrite ∧
    ((freshDB.Put [97] [49] none).1.Del [97] (some 0)).1.indexes =
      (freshDB.Put [97] [49] none).1.indexes ∧
    ((freshDB.Put [97] [49] none).1.Del [97] (some 0)).1.indexes [97] = some 0 :=
  ⟨by decide, by decide,
    (del_failure_keeps_index (freshDB.Put [97] [49] none).1 [97] (some 0) 0 (by decide)
      (by decide)).1 Error.ErrWrite (by decide)⟩

/-- C19. The full forward scan terminates on every finite file: whatever the file holds,
from every offset the scan loops of `Merge` and of `loadIndexesFromFile` return when they
may run one iteration more than bytes are left, and more iterations change nothing; hence
`Open` and `Merge` always return. An iteration either ends the loop (`Read` fails) or moves
the offset on by the total size of the entry, at least the header size, which is positive,
and then the header was inside the file. -/
theorem scan_terminates (df : DBFile) (indexes : Index) (off extra : Nat)
    (acc : List Entry) :
    (mergeScan (df.File.length - off + 1) df indexes off acc).isSome = true ∧
    mergeScan (df.File.length - off + 1 + extra) df indexes off acc =
      mergeScan (df.File.length - off + 1) df indexes off acc ∧
    (loadLoop (df.File.length - off + 1) df indexes off).isSome = true ∧
    loadLoop (df.File.length - off + 1 + extra) df indexes off =
      loadLoop (df.File.length - off + 1) df indexes off ∧
    (∀ dir, (Open dir).isSome = true) ∧
    (∀ (db : MiniDB) faults, (db.Merge faults).isSome = true) ∧
    (∀ e, df.Read off = .ok e →
      0 < entryHeaderSize ∧ entryHeaderSize ≤ e.GetSize ∧ off < off + e.GetSize ∧
      off + entryHeaderSize ≤ df.File.length) := by
  have hm := mergeScan_fuel df indexes (df.File.length - off + 1) off acc (by omega)
    (by omega)
  have hl := loadLoop_fuel df (df.File.length - off + 1) off indexes (by omega) (by omega)
  refine ⟨hm, ?_, hl, ?_, Open_returns, MiniDB.Merge_returns, ?_⟩
  · obtain ⟨res, hres⟩ := Option.isSome_iff_exists.mp hm
    rw [hres]
    exact mergeScan_more_fuel df indexes _ extra off acc res hres
  · obtain ⟨res, hres⟩ := Option.isSome_iff_exists.mp hl
    rw [hres]
    exact loadLoop_more_fuel df _ extra off indexes res hres
  · intro e he
    have hb := DBFile.Read_ok_bound df off e he
    have hpos : entryHeaderSize ≤ e.GetSize := by
      simp only [Entry.GetSize]; omega
    have h0 : 0 < entryHeaderSize := by decide
    exact ⟨h0, hpos, by omega, hb⟩

theorem getUint32_lt (b : List Byte) : getUint32 b < 4294967296 := by
  unfold getUint32
  split
  · rename_i b0 b1 b2 b3
    have h0 := b0.isLt
    have h1 := b1.isLt
    have h2 := b2.isLt
    have h3 := b3.isLt
    omega
  · decide

theorem Decode_ok (buf : List Byte) (e : Entry) (h : Decode buf = .ok e) :
    e.Key = [] ∧ e.Value = [] ∧ e.KeySize < 4294967296 ∧ e.ValueSize < 4294967296 ∧
    (e.Mark = PUT ∨ e.Mark = DEL) := by
  unfold Decode at h
  split at h
  · simp only at h
    split at h
    · rename_i hm
      injection h with h
      subst h
      exact ⟨rfl, rfl, getUint32_lt _, getUint32_lt _, hm⟩
    · exact absurd h (by simp)
  · exact absurd h (by simp)

theorem ReadAt_ok_length (file : List Byte) (n off : Nat) (b : List Byte)
    (h : ReadAt file n off = .ok b) : b.length = n := by
  have hb := ReadAt_ok_bound file n off b h
  unfold ReadAt at h
  rw [if_pos hb] at h
  injection h with h
  subst h
  simp only [List.length_take, List.length_drop]
  omega

/-- Every entry that `Read` returns is well-formed, whatever the file holds. -/
theorem DBFile.Read_ok_wellFormed (df : DBFile) (off : Nat) (e : Entry)
    (h : df.Read off = .ok e) : e.wellFormed := by
  unfold DBFile.Read at h
  cases hh : ReadAt df.File entryHeaderSize off with
  | error err => rw [hh] at h; exact absurd h (by simp)
  | ok buf =>
    rw [hh] at h
    simp only at h
    cases hd : Decode buf with
    | error err => rw [hd] at h; exact absurd h (by simp)
    | ok e0 =>
      rw [hd] at h
      simp only at h
      obtain ⟨hk0, hv0, hks, hvs, hm⟩ := Decode_ok buf e0 hd
      have hkey : ∃ key, key.length = e0.KeySize ∧
          (if e0.KeySize > 0 then
            (ReadAt df.File e0.KeySize (off + entryHeaderSize)).map
              (fun key => { e0 with Key := key })
           else (.ok e0 : Except Error Entry)) = .ok { e0 with Key := key } := by
        by_cases hpos : e0.KeySize > 0
        · rw [if_pos hpos]
          cases hr : ReadAt df.File e0.KeySize (off + entryHeaderSize) with
          | error err => rw [hr, if_pos hpos] at h; exact absurd h (by simp [Except.map])
          | ok key => exact ⟨key, ReadAt_ok_length _ _ _ _ hr, rfl⟩
        · rw [if_neg hpos]
          refine ⟨[], by simp; omega, ?_⟩
          rw [← hk0]
      obtain ⟨key, hklen, hkeq⟩ := hkey
      rw [hkeq] at h
      simp only at h
      have hval : ∃ value, value.length = e0.ValueSize ∧
          (if e0.ValueSize > 0 then
            (ReadAt df.File e0.ValueSize (off + entryHeaderSize + e0.KeySize)).map
              (fun value => { e0 with Key := key, Value := value })
           else (.ok { e0 with Key := key } : Except Error Entry)) =
            .ok { e0 with Key := key, Value := value } := by
        by_cases hpos : e0.ValueSize > 0
        · rw [if_pos hpos]
          cases hr : ReadAt df.File e0.ValueSize (off + entryHeaderSize + e0.KeySize) with
          | error err => rw [hr, if_pos hpos] at h; exact absurd h (by simp [Except.map])
          | ok value => exact ⟨value, ReadAt_ok_length _ _ _ _ hr, rfl⟩
        · rw [if_neg hpos]
          refine ⟨[], by simp; omega, ?_⟩
          rw [← hv0]
      obtain ⟨value, hvlen, hveq⟩ := hval
      rw [hveq] at h
      injection h with h
      subst h
      exact ⟨hklen.symm, hvlen.symm, hks, hvs, hm⟩

/-- A `Put` that returns no error keeps the log a sequence of well-formed records and the
index their replay, and does not touch the temporary merge file. -/
theorem IsLog.after_put {db : MiniDB} {rs : List Entry} (hlog : IsLog db rs)
    (hidx : db.indexes = replay rs 0 Index.empty) (key value : List Byte)
    (fault : Option Nat) (hput : (db.Put key value fault).2 = none) :
    ∃ rs', IsLog (db.Put key value fault).1 rs' ∧
      (db.Put key value fault).1.indexes = replay rs' 0 Index.empty ∧
      (db.Put key value fault).1.mergeFile = db.mergeFile := by
  by_cases hk : key = []
  · subst hk
    exact ⟨rs, hlog, hidx, rfl⟩
  · obtain ⟨hwf, heq⟩ := MiniDB.Put_ok db key value fault hk hput
    rw [heq]
    refine ⟨rs ++ [NewEntry key value PUT], IsLog.append db rs _ _ hlog hwf, ?_, rfl⟩
    have hne : ¬ (NewEntry key value PUT).Mark = DEL := by simp [NewEntry, PUT, DEL]
    simp only [replay_append rs _ 0 Index.empty hlog.1, replay, if_neg hne, ← hidx,
      Nat.zero_add, ← hlog.2.1, ← hlog.2.2]
    rfl

/-- A `Del` that returns no error keeps the log a sequence of well-formed records and the
index their replay, and does not touch the temporary merge file. -/
theorem IsLog.after_del {db : MiniDB} {rs : List Entry} (hlog : IsLog db rs)
    (hidx : db.indexes = replay rs 0 Index.empty) (key : List Byte)
    (fault : Option Nat) (hdel : (db.Del key fault).2 = none) :
    ∃ rs', IsLog (db.Del key fault).1 rs' ∧
      (db.Del key fault).1.indexes = replay rs' 0 Index.empty ∧
      (db.Del key fault).1.mergeFile = db.mergeFile := by
  by_cases hk : key = []
  · subst hk
    exact ⟨rs, hlog, hidx, rfl⟩
  · cases hi : db.indexes key with
    | none =>
      rw [MiniDB.Del_absent db key fault hi]
      exact ⟨rs, hlog, hidx, rfl⟩
    | some off =>
      obtain ⟨hwf, heq⟩ := MiniDB.Del_ok db key fault off hk hi hdel
      rw [heq]
      refine ⟨rs ++ [NewEntry key [] DEL], IsLog.append db rs _ _ hlog hwf, ?_, rfl⟩
      have hm : (NewEntry key [] DEL).Mark = DEL := rfl
      simp only [replay_append rs _ 0 Index.empty hlog.1, replay, if_pos hm, ← hidx]
      rfl

/-- What `Open` returns on a directory whose log is a sequence of well-formed records. -/
theorem Open_wellFormedLog (dir : Dir) (rs : List Entry) (hwf : ∀ r ∈ rs, r.wellFormed)
    (hdata : dir.data.getD [] = logBytes rs) :
    Open dir = some { indexes := replay rs 0 Index.empty, dbFile := newInternal (logBytes rs),
                      mergeFile := dir.merge } := by
  have hopen := Open_log_tail rs [] dir.merge hwf
    ⟨_, DBFile.Read_end _ _ (by simp [newInternal])⟩
  rw [List.append_nil] at hopen
  rw [← hopen]
  simp only [Open, hdata, Option.getD_some]

/-- The invariant of the states reached on a directory whose log is well-formed: the log is
a sequence of well-formed records, the index is their replay, and the temporary merge file
is as `Open` found it. -/
theorem ReachableFrom.log_replay {dir : Dir} {db : MiniDB} (hdir : dir.wellFormedLog)
    (h : ReachableFrom dir db) :
    ∃ rs, IsLog db rs ∧ db.indexes = replay rs 0 Index.empty ∧ db.mergeFile = dir.merge := by
  induction h with
  | init db hopen =>
    obtain ⟨rs, hwf, hdata⟩ := hdir
    rw [Open_wellFormedLog dir rs hwf hdata] at hopen
    injection hopen with hopen
    subst hopen
    exact ⟨rs, ⟨hwf, rfl, rfl⟩, rfl, rfl⟩
  | put db key value fault _ hput ih =>
    obtain ⟨rs, hlog, hidx, hmf⟩ := ih
    obtain ⟨rs', hlog', hidx', hmf'⟩ := hlog.after_put hidx key value fault hput
    exact ⟨rs', hlog', hidx', hmf'.trans hmf⟩
  | del db key fault _ hdel ih =>
    obtain ⟨rs, hlog, hidx, hmf⟩ := ih
    obtain ⟨rs', hlog', hidx', hmf'⟩ := hlog.after_del hidx key fault hdel
    exact ⟨rs', hlog', hidx', hmf'.trans hmf⟩

theorem emptyDir_wellFormedLog : emptyDir.wellFormedLog :=
  ⟨[], by simp, rfl⟩

theorem Reachable.toFrom {db : MiniDB} (h : Reachable db) : ReachableFrom emptyDir db := by
  induction h with
  | init db hopen => exact ReachableFrom.init db hopen
  | put db key value fault _ hput ih => exact ReachableFrom.put db key value fault ih hput
  | del db key fault _ hdel ih => exact ReachableFrom.del db key fault ih hdel

/-- What the scan of `Merge` keeps, whatever the file holds: well-formed entries, each at an
offset that the index holds for its key, no key twice. -/
theorem mergeScan_valid (df : DBFile) (indexes : Index) :
    ∀ (fuel off : Nat) (acc valid : List Entry),
      mergeScan fuel df indexes off acc = some (.ok valid) →
      ∃ w, valid = acc ++ w ∧ (∀ e ∈ w, e.wellFormed) ∧
        (∀ e ∈ w, ∃ o, off ≤ o ∧ indexes e.Key = some o) ∧ KeysOnce w := by
  intro fuel
  induction fuel with
  | zero => intro off acc valid h; simp [mergeScan] at h
  | succ fuel ih =>
    intro off acc valid h
    simp only [mergeScan] at h
    cases hr : df.Read off with
    | error p =>
      rw [hr] at h
      obtain ⟨_, err⟩ := p
      simp only at h
      split at h
      · injection h with h
        injection h with h
        exact ⟨[], by simp [h], by simp, by simp, by intro a r b hab; simp at hab⟩
      · exact absurd h (by simp)
    | ok ent =>
      rw [hr] at h
      simp only at h
      have hwf := DBFile.Read_ok_wellFormed df off ent hr
      have hpos := Entry.GetSize_pos ent
      obtain ⟨w, hv, hw, ho, honce⟩ := ih _ _ _ h
      have ho' : ∀ e ∈ w, ∃ o, off ≤ o ∧ indexes e.Key = some o := by
        intro e he
        obtain ⟨o, hle, hi⟩ := ho e he
        exact ⟨o, by omega, hi⟩
      by_cases hlive : indexes ent.Key = some off
      · rw [if_pos hlive] at hv
        refine ⟨ent :: w, by simp [hv], ?_, ?_, ?_⟩
        · intro e he
          rcases List.mem_cons.mp he with rfl | he
          · exact hwf
          · exact hw e he
        · intro e he
          rcases List.mem_cons.mp he with rfl | he
          · exact ⟨off, Nat.le_refl _, hlive⟩
          · exact ho' e he
        · intro a r b hab x hx
          cases a with
          | nil =>
            simp only [List.nil_append, List.cons.injEq] at hab
            obtain ⟨rfl, hb⟩ := hab
            obtain ⟨o, hle, hi⟩ := ho x (hb ▸ hx)
            intro hkey
            rw [hkey, hlive] at hi
            injection hi with hi
            omega
          | cons z a =>
            simp only [List.cons_append, List.cons.injEq] at hab
            exact honce a r b hab.2 x hx
      · rw [if_neg hlive] at hv
        exact ⟨w, hv, hw, ho', honce⟩

/-- What a `Merge` that returns no error leaves, whatever the log holds: the engine as it
was, or the engine rewritten with the well-formed entries that the scan kept. -/
theorem MiniDB.Merge_shape (db db' : MiniDB) (faults : Nat → Option Nat)
    (hm : db.Merge faults = some (db', none)) :
    db' = db ∨ ∃ valid, valid ≠ [] ∧ (∀ e ∈ valid, e.wellFormed) ∧ KeysOnce valid ∧
      db' = mergedDB db valid := by
  have hm' := MiniDB.Merge_ok db db' faults hm
  unfold MiniDB.Merge at hm'
  by_cases h0 : db.dbFile.Offset = 0
  · rw [if_pos h0] at hm'
    injection hm' with hm'
    injection hm' with hm' _
    exact Or.inl hm'.symm
  · rw [if_neg h0] at hm'
    cases hs : mergeScan (db.dbFile.File.length + 1) db.dbFile db.indexes 0 [] with
    | none => rw [hs] at hm'; exact absurd hm' (by simp)
    | some res =>
      rw [hs] at hm'
      cases res with
      | error err => simp at hm'
      | ok valid =>
        simp only at hm'
        obtain ⟨w, hv, hw, _, honce⟩ := mergeScan_valid _ _ _ _ _ _ hs
        rw [List.nil_append] at hv
        subst hv
        by_cases hpos : valid.length > 0
        · rw [if_pos hpos, mergeWrite_noFault valid _ _ hw rfl] at hm'
          simp only at hm'
          injection hm' with hm'
          injection hm' with hm' _
          right
          refine ⟨valid, List.length_pos.mp hpos, hw, honce, ?_⟩
          rw [← hm']
          simp [mergedDB, newInternal]
        · rw [if_neg hpos] at hm'
          injection hm' with hm'
          injection hm' with hm' _
          exact Or.inl hm'.symm

theorem reindex_twice (vs : List Entry) (off : Nat) (indexes : Index) :
    reindex vs off (reindex vs off indexes) = reindex vs off indexes := by
  funext k
  by_cases hk : ∃ r ∈ vs, r.Key = k
  · exact reindex_mem vs k off _ _ hk
  · exact reindex_other vs k off _ (fun r hr hkey => hk ⟨r, hr, hkey⟩)

/-- With no temporary merge file left, a second `Merge` that returns no error changes
nothing, whatever the log held before the first. -/
theorem MiniDB.Merge_twice (db db1 db2 : MiniDB) (f1 f2 : Nat → Option Nat)
    (hmf : db.mergeFile = none) (h1 : db.Merge f1 = some (db1, none))
    (h2 : db1.Merge f2 = some (db2, none)) : db2 = db1 := by
  rcases MiniDB.Merge_shape db db1 f1 h1 with rfl | ⟨valid, hne, hwf, honce, rfl⟩
  · have e1 := MiniDB.Merge_ok _ _ f1 h1
    have e2 := MiniDB.Merge_ok _ _ f2 h2
    rw [e1] at e2
    injection e2 with e2
    injection e2 with e2 _
    exact e2.symm
  · have hlog : IsLog (mergedDB db valid) valid :=
      ⟨hwf, by simp [mergedDB, newInternal, hmf], by simp [mergedDB, newInternal]⟩
    have hindex : ∀ pre r post, valid = pre ++ r :: post →
        (mergedDB db valid).indexes r.Key = some (0 + (logBytes pre).length) := by
      intro pre r post hsplit
      have hpre : ∀ x ∈ pre, x.wellFormed :=
        fun x hx => hwf x (hsplit ▸ List.mem_append_left _ hx)
      have := reindex_at pre post r 0 db.indexes hpre (honce pre r post hsplit)
      simp only [mergedDB, hmf, Option.getD_none, List.length_nil]
      rw [hsplit]
      exact this
    have hall : liveRecords (mergedDB db valid).indexes valid 0 = valid :=
      liveRecords_all _ valid 0 hwf hindex
    rcases MiniDB.Merge_cases valid hlog db2 f2 h2 with ⟨_, hdb⟩ | ⟨_, hdb⟩
    · exact hdb
    · rw [hdb, hall]
      apply MiniDB.eq_of_parts
      · simp only [mergedDB, hmf, Option.getD_none, List.length_nil]
        exact reindex_twice valid 0 db.indexes
      · simp [mergedDB, newInternal, hmf]
      · rfl

theorem Open_getD (dir : Dir) : Open dir = some ((Open dir).getD freshDB) := by
  have h := Open_returns dir
  cases ho : Open dir with
  | none => rw [ho] at h; exact absurd h (by simp)
  | some db => rfl

theorem reachableFrom_tornDB : ReachableFrom tornDir tornDB :=
  ReachableFrom.put _ _ _ _ (ReachableFrom.init _ (Open_getD tornDir)) (by decide)

theorem reachableFrom_tornOnlyDB : ReachableFrom tornOnlyDir tornOnlyDB :=
  ReachableFrom.put _ _ _ _ (ReachableFrom.init _ (Open_getD tornOnlyDir)) (by decide)

theorem reachableFrom_staleDB : ReachableFrom staleDir staleDB :=
  ReachableFrom.put _ _ _ _ (ReachableFrom.init _ (Open_getD staleDir)) (by decide)

theorem reachableFrom_staleRecordDB : ReachableFrom staleRecordDir staleRecordDB :=
  ReachableFrom.put _ _ _ _ (ReachableFrom.init _ (Open_getD staleRecordDir)) (by decide)

/-- An engine whose log is not empty and whose index maps no key to offset `0` has a first
record that is not live. -/
theorem not_onlyLive (db : MiniDB) (hfile : db.dbFile.File ≠ [])
    (hzero : ∀ k, db.indexes k ≠ some 0) : ¬ OnlyLive db := by
  rintro ⟨rs, hlog, hlive⟩
  cases rs with
  | nil => exact hfile hlog.2.1
  | cons r rs =>
    have := (hlive [] r rs rfl).2
    exact hzero r.Key this

/-- C4, as stated, fails: `Open` on a log that ends in a truncated record, then
`Put("c", "3")` without error: `Get("c")` returns `"3"`; `Merge` returns no error, its scan
ends at the truncated record, the record of `"c"` behind it is not rewritten, and `Get("c")`
then returns no value and `io.EOF`. -/
theorem merge_loses_put_behind_torn_record :
    ReachableFrom tornDir tornDB ∧
    tornDB.Get [99] = ([51], none) ∧
    tornDB.Merge noFault = some (mergedDB tornDB [NewEntry [97] [49] PUT], none) ∧
    (mergedDB tornDB [NewEntry [97] [49] PUT]).Get [99] = ([], some Error.EOF) :=
  ⟨reachableFrom_tornDB, by decide, rfl, by decide⟩

/-- C4, amended. Merge preserves live data: for every engine opened on a directory whose log
is missing, empty or a sequence of well-formed records, in every state reached by `Put` and
`Del` calls that returned no error, `Merge` returns no error when the device does not fail,
and after any `Merge` that returned no error `Get(k)` returns, for every key `k`, what it
returned before the `Merge`. -/
theorem merge_preserves_get (dir : Dir) (db : MiniDB) (hdir : dir.wellFormedLog)
    (h : ReachableFrom dir db) :
    (∃ db', db.Merge noFault = some (db', none)) ∧
    ∀ faults db', db.Merge faults = some (db', none) → ∀ k, db'.Get k = db.Get k := by
  obtain ⟨rs, hlog, hidx, _⟩ := h.log_replay hdir
  constructor
  · rw [MiniDB.Merge_noFault db rs hlog]
    split <;> exact ⟨_, rfl⟩
  · intro faults db' hm k
    rcases MiniDB.Merge_cases rs hlog db' faults hm with ⟨_, rfl⟩ | ⟨_, rfl⟩
    · rfl
    · exact Reachable.get_after_merge rs k hlog hidx

theorem merge_preserves_get_witness :
    emptyDir.wellFormedLog ∧ ReachableFrom emptyDir scenarioDB ∧
    (scenarioDB.Merge noFault).map (fun r => (r.1.Get [97], r.1.Get [98], r.2)) =
      some (([50], none), ([], some Error.ErrKeyNotExist), none) := by
  refine ⟨emptyDir_wellFormedLog, reachable_scenarioDB.toFrom, ?_⟩
  obtain ⟨⟨db', hm⟩, hget⟩ :=
    merge_preserves_get emptyDir scenarioDB emptyDir_wellFormedLog reachable_scenarioDB.toFrom
  have h1 : scenarioDB.Get [97] = ([50], none) := by decide
  have h2 : scenarioDB.Get [98] = ([], some Error.ErrKeyNotExist) := by decide
  rw [hm, Option.map_some', hget noFault db' hm [97], hget noFault db' hm [98], h1, h2]

theorem staleDB_merged_index (k : List Byte) :
    (mergedDB staleDB [NewEntry [97] [49] PUT]).indexes k ≠ some 0 := by
  have h : (mergedDB staleDB [NewEntry [97] [49] PUT]).indexes =
      (Index.empty.set [97] 0).set [97] 3 := rfl
  rw [h]
  simp only [Index.set, Index.empty]
  split <;> simp

theorem tornOnlyDB_index (k : List Byte) : tornOnlyDB.indexes k ≠ some 0 := by
  have h : tornOnlyDB.indexes = Index.empty.set [99] 4 := rfl
  rw [h]
  simp only [Index.set, Index.empty]
  split <;> simp

/-- C9, as stated, fails, in three ways. After `Put("a", "1")` and `Del("a")` on a fresh
engine `Merge` returns no error and rewrites nothing: the two records stay. With a temporary
merge file left in the directory, `Merge` after `Put("a", "1")` returns no error and the new
log starts with the three bytes left in that file. On a log that is a truncated record,
`Merge` after `Put("c", "3")` returns no error and rewrites nothing: the truncated bytes
stay. In each case the log after `Merge` is not made of live records only. -/
theorem merge_leaves_records_not_live :
    (Reachable deletedDB ∧ deletedDB.dbFile.File ≠ [] ∧
      deletedDB.Merge noFault = some (deletedDB, none) ∧ ¬ OnlyLive deletedDB) ∧
    (ReachableFrom staleDir staleDB ∧ staleDB.dbFile.File ≠ [] ∧
      staleDB.Merge noFault = some (mergedDB staleDB [NewEntry [97] [49] PUT], none) ∧
      (mergedDB staleDB [NewEntry [97] [49] PUT]).dbFile.File =
        [9, 9, 9] ++ logBytes [NewEntry [97] [49] PUT] ∧
      ¬ OnlyLive (mergedDB staleDB [NewEntry [97] [49] PUT])) ∧
    (ReachableFrom tornOnlyDir tornOnlyDB ∧ tornOnlyDB.dbFile.File ≠ [] ∧
      tornOnlyDB.indexes [99] = some 4 ∧
      tornOnlyDB.Merge noFault = some (tornOnlyDB, none) ∧ ¬ OnlyLive tornOnlyDB) := by
  obtain ⟨h1, h2, h3, _, h5⟩ := merge_keeps_log_without_live_key
  refine ⟨⟨h1, h2, h3, h5⟩, ⟨reachableFrom_staleDB, by decide, rfl, by decide, ?_⟩,
    ⟨reachableFrom_tornOnlyDB, by decide, by decide, rfl, ?_⟩⟩
  · exact not_onlyLive _ (by decide) staleDB_merged_index
  · exact not_onlyLive _ (by decide) tornOnlyDB_index

/-- C9, amended. For every engine opened on a directory whose log is missing, empty or a
sequence of well-formed records and that holds no temporary merge file, in every state
reached by `Put` and `Del` calls that returned no error, `Merge` returns no error when the
device does not fail. After any `Merge` that returned no error: when the index held at
least one key, every record of the active log is a `PUT` record that starts at the offset
the index holds for its key; when the index held no key, the engine, its log included, is
as it was. -/
theorem merge_retains_only_live (dir : Dir) (db : MiniDB) (hdir : dir.wellFormedLog)
    (hmerge : dir.merge = none) (h : ReachableFrom dir db) :
    (∃ db', db.Merge noFault = some (db', none)) ∧
    ∀ faults db', db.Merge faults = some (db', none) →
      ((∃ k, db.indexes k ≠ none) → OnlyLive db') ∧
      ((∀ k, db.indexes k = none) → db' = db) := by
  obtain ⟨rs, hlog, hidx, hmf⟩ := h.log_replay hdir
  rw [hmerge] at hmf
  constructor
  · rw [MiniDB.Merge_noFault db rs hlog]
    split <;> exact ⟨_, rfl⟩
  · intro faults db' hm
    constructor
    · intro hkey
      have hne := Reachable.live_ne_nil rs hlog hidx hkey
      rcases MiniDB.Merge_cases rs hlog db' faults hm with ⟨hnil, _⟩ | ⟨_, rfl⟩
      · exact absurd hnil hne
      · have hwf := liveRecords_wellFormed db.indexes rs 0 hlog.1
        refine ⟨liveRecords db.indexes rs 0, ⟨hwf, ?_, ?_⟩, ?_⟩
        · simp [mergedDB, newInternal, hmf]
        · simp [mergedDB, newInternal]
        · intro pre r post hl
          constructor
          · obtain ⟨a, b, hrs, hi⟩ :=
              mem_liveRecords_split db.indexes rs 0 r hlog.1 (by rw [hl]; simp)
            rw [hidx, hrs, Nat.zero_add] at hi
            exact replay_live_mark a b r (hrs ▸ hlog.1) hi
          · rw [mergedDB_index db rs pre post r hlog hl, hmf]
            simp
    · intro hnone
      rcases MiniDB.Merge_cases rs hlog db' faults hm with ⟨_, hdb⟩ | ⟨hne, _⟩
      · exact hdb
      · obtain ⟨r, hr⟩ := List.exists_mem_of_ne_nil _ hne
        obtain ⟨_, o, _, ho⟩ := mem_liveRecords db.indexes rs 0 r hr
        rw [hnone] at ho
        exact absurd ho (by simp)

theorem merge_retains_only_live_witness :
    emptyDir.wellFormedLog ∧ emptyDir.merge = none ∧ ReachableFrom emptyDir scenarioDB ∧
    (∃ k, scenarioDB.indexes k ≠ none) ∧
    (∃ db', scenarioDB.Merge noFault = some (db', none)) ∧
    ∀ faults db', scenarioDB.Merge faults = some (db', none) → OnlyLive db' :=
  ⟨emptyDir_wellFormedLog, rfl, reachable_scenarioDB.toFrom, ⟨[97], by decide⟩,
    (merge_retains_only_live emptyDir scenarioDB emptyDir_wellFormedLog rfl
      reachable_scenarioDB.toFrom).1,
    fun faults db' hm =>
      ((merge_retains_only_live emptyDir scenarioDB emptyDir_wellFormedLog rfl
        reachable_scenarioDB.toFrom).2 faults db' hm).1 ⟨[97], by decide⟩⟩

/-- C17, as stated, fails: with a temporary merge file left in the directory that holds the
record of `"z"`, after `Put("a", "1")` a first `Merge` returns no error and leaves the log
`record z ++ record a` with `"a"` at offset `14`; a second `Merge` returns no error and
leaves the log `record a` with `"a"` at offset `0`. -/
theorem merge_twice_differs_after_stale_file :
    ReachableFrom staleRecordDir staleRecordDB ∧
    staleRecordDB.Merge noFault =
      some (mergedDB staleRecordDB [NewEntry [97] [49] PUT], none) ∧
    (mergedDB staleRecordDB [NewEntry [97] [49] PUT]).Merge noFault =
      some (mergedDB (mergedDB staleRecordDB [NewEntry [97] [49] PUT])
        [NewEntry [97] [49] PUT], none) ∧
    (mergedDB staleRecordDB [NewEntry [97] [49] PUT]).dbFile.File =
      logBytes [NewEntry [122] [48] PUT, NewEntry [97] [49] PUT] ∧
    (mergedDB staleRecordDB [NewEntry [97] [49] PUT]).indexes [97] = some 14 ∧
    (mergedDB (mergedDB staleRecordDB [NewEntry [97] [49] PUT])
      [NewEntry [97] [49] PUT]).dbFile.File = logBytes [NewEntry [97] [49] PUT] ∧
    (mergedDB (mergedDB staleRecordDB [NewEntry [97] [49] PUT])
      [NewEntry [97] [49] PUT]).indexes [97] = some 0 :=
  ⟨reachableFrom_staleRecordDB, rfl, rfl, by decide, by decide, by decide, by decide⟩

/-- C17, amended. Merge is idempotent when no temporary merge file is left in the directory:
in every such engine state, whatever the log holds, whenever two `Merge` calls in
succession return no error the second leaves the engine exactly as the first left it (same
log bytes, same write offset, same index); and when the log is a sequence of well-formed
records, as in the states reached by `Put` and `Del` calls that returned no error, both
`Merge` calls return no error when the device does not fail. -/
theorem merge_idempotent (db : MiniDB) (hmf : db.mergeFile = none) :
    (∀ f1 f2 db1 db2, db.Merge f1 = some (db1, none) → db1.Merge f2 = some (db2, none) →
      db2.dbFile = db1.dbFile ∧ db2.indexes = db1.indexes ∧ db2 = db1) ∧
    (∀ rs, IsLog db rs →
      ∃ db1, db.Merge noFault = some (db1, none) ∧ db1.Merge noFault = some (db1, none)) := by
  have htwice : ∀ f1 f2 db1 db2, db.Merge f1 = some (db1, none) →
      db1.Merge f2 = some (db2, none) → db2 = db1 :=
    fun f1 f2 db1 db2 h1 h2 => MiniDB.Merge_twice db db1 db2 f1 f2 hmf h1 h2
  constructor
  · intro f1 f2 db1 db2 h1 h2
    have := htwice f1 f2 db1 db2 h1 h2
    subst this
    exact ⟨rfl, rfl, rfl⟩
  · intro rs hlog
    have h1 : ∃ db1, db.Merge noFault = some (db1, none) := by
      rw [MiniDB.Merge_noFault db rs hlog]
      split <;> exact ⟨_, rfl⟩
    obtain ⟨db1, h1⟩ := h1
    have hlog1 : ∃ rs1, IsLog db1 rs1 := by
      rcases MiniDB.Merge_cases rs hlog db1 noFault h1 with ⟨_, rfl⟩ | ⟨_, rfl⟩
      · exact ⟨rs, hlog⟩
      · exact ⟨liveRecords db.indexes rs 0, liveRecords_wellFormed _ _ _ hlog.1,
          by simp [mergedDB, newInternal, hmf], by simp [mergedDB, newInternal]⟩
    obtain ⟨rs1, hlog1⟩ := hlog1
    have h2 : ∃ db2, db1.Merge noFault = some (db2, none) := by
      rw [MiniDB.Merge_noFault db1 rs1 hlog1]
      split <;> exact ⟨_, rfl⟩
    obtain ⟨db2, h2⟩ := h2
    have := htwice noFault noFault db1 db2 h1 h2
    subst this
    exact ⟨db2, h1, h2⟩

theorem merge_idempotent_witness :
    scenarioDB.mergeFile = none ∧
    scenarioDB.Merge noFault = some (mergedScenarioDB, none) ∧
    ∀ db2, mergedScenarioDB.Merge noFault = some (db2, none) → db2 = mergedScenarioDB := by
  have hlog : IsLog scenarioDB [NewEntry [98] [120] PUT, NewEntry [97] [49] PUT,
      NewEntry [97] [50] PUT, NewEntry [98] [] DEL] :=
    ⟨by decide, by decide, by decide⟩
  have hl : liveRecords scenarioDB.indexes [NewEntry [98] [120] PUT, NewEntry [97] [49] PUT,
      NewEntry [97] [50] PUT, NewEntry [98] [] DEL] 0 = [NewEntry [97] [50] PUT] := by
    decide
  have h1 : scenarioDB.Merge noFault = some (mergedScenarioDB, none) := by
    rw [MiniDB.Merge_noFault scenarioDB _ hlog, hl]
    rfl
  exact ⟨rfl, h1, fun db2 h2 =>
    ((merge_idempotent scenarioDB rfl).1 noFault noFault mergedScenarioDB db2 h1 h2).2.2⟩

end minidb
